import Mathlib

/-!
Verification of the kundli archive engine (src/kundli.cpp, include/kundli.hpp).

Byte buffers are modelled as `List Nat` with each element below 256; machine
integers are `Nat` with explicit masking where the C++ relies on fixed-width
wraparound.  The definitions mirror the source functions; definitions whose
doc comment says "Modelled from" embed the documented semantics of a CPU
instruction or C++ standard-library primitive used by the source.
-/

namespace Kundli

/-- Inner loop body of `create_crc32_table`:
`crc = (crc >> 1) ^ (0xEDB88320 & (-(crc & 1)))` where on `u32` the
expression `-(crc & 1)` is `0xFFFFFFFF` when the low bit is set and `0`
otherwise, so the conjunction is `0xEDB88320` or `0`. -/
def crcStep (crc : Nat) : Nat :=
  (crc >>> 1) ^^^ (if crc &&& 1 = 1 then 0xEDB88320 else 0)

/-- Entry `i` of the lookup table built by `create_crc32_table`:
eight iterations of `crcStep` starting from `i`. -/
def crc32_table (i : Nat) : Nat := crcStep^[8] i

/-- Loop body of `crc32`:
`crc = crc32_table[(crc ^ data[i]) & 0xFF] ^ (crc >> 8)`. -/
def crc32_update (crc b : Nat) : Nat :=
  crc32_table ((crc ^^^ b) &&& 0xFF) ^^^ (crc >>> 8)

/-- Table-driven `u32 crc32(const u8 *data, size_t length)`: initial value
all-ones, table-driven byte updates, final complement (`~crc` on `u32` is
`crc ^^^ 0xFFFFFFFF`). -/
def crc32 (l : List Nat) : Nat :=
  0xFFFFFFFF ^^^ l.foldl crc32_update 0xFFFFFFFF

/-- Modelled from the spec: one byte of the standard CRC-32/ISO-HDLC
computation, stated bitwise as in the spec's contract — xor the byte into
the register, then run eight reflected-polynomial (0xEDB88320) bit steps. -/
def crc32_spec_update (crc b : Nat) : Nat := crcStep^[8] (crc ^^^ b)

/-- Modelled from the spec: the standard CRC-32/ISO-HDLC checksum —
reflected polynomial 0xEDB88320, initial value all-ones, final value
complemented. -/
def crc32_spec (l : List Nat) : Nat :=
  0xFFFFFFFF ^^^ l.foldl crc32_spec_update 0xFFFFFFFF

/-- One reflected CRC-32C (Castagnoli, polynomial 0x82F63B78) bit step, the
primitive implemented by the SSE4.2 `crc32` instruction. -/
def crc32cStep (crc : Nat) : Nat :=
  (crc >>> 1) ^^^ (if crc &&& 1 = 1 then 0x82F63B78 else 0)

/-- Modelled from the Intel SSE4.2 instruction semantics: `_mm_crc32_u8`
accumulates one byte into a CRC-32C value. -/
def mm_crc32_u8 (crc b : Nat) : Nat := crc32cStep^[8] (crc ^^^ b)

/-- Modelled from the Intel SSE4.2 instruction semantics: `_mm_crc32_u64`
on a 64-bit operand loaded from memory on a little-endian machine is a
CRC-32C accumulation of the eight memory bytes in order. -/
def mm_crc32_u64 (crc : Nat) (bytes : List Nat) : Nat :=
  bytes.foldl mm_crc32_u8 crc

/-- Modelled from the Intel SSE4.2 instruction semantics: `_mm_crc32_u32`
on a 32-bit operand loaded from memory on a little-endian machine is a
CRC-32C accumulation of the four memory bytes in order. -/
def mm_crc32_u32 (crc : Nat) (bytes : List Nat) : Nat :=
  bytes.foldl mm_crc32_u8 crc

/-- The chunked loop of `crc32_simd` when SSE4.2 is available: 8-byte
chunks via `_mm_crc32_u64`, then one 4-byte chunk via `_mm_crc32_u32` if
at least four bytes remain, then the remaining bytes via `_mm_crc32_u8`. -/
def crc32_simd_loop : Nat → List Nat → Nat
  | crc, b0 :: b1 :: b2 :: b3 :: b4 :: b5 :: b6 :: b7 :: rest =>
      crc32_simd_loop (mm_crc32_u64 crc [b0, b1, b2, b3, b4, b5, b6, b7]) rest
  | crc, b0 :: b1 :: b2 :: b3 :: rest =>
      rest.foldl mm_crc32_u8 (mm_crc32_u32 crc [b0, b1, b2, b3])
  | crc, rest => rest.foldl mm_crc32_u8 crc

/-- Model of `u32 crc32_simd(const u8 *data, size_t length)`: falls back to the
table-driven `crc32` when SSE4.2 is not supported (`has_sse4_2()` is the
`sse42` parameter), otherwise runs the hardware CRC32 chunk loop starting
from all-ones and complements the result. -/
def crc32_simd (sse42 : Bool) (l : List Nat) : Nat :=
  if !sse42 then crc32 l
  else 0xFFFFFFFF ^^^ crc32_simd_loop 0xFFFFFFFF l

/-! ## Binary archive layout

The on-disk format written by `Archive::compress` and read back by
`Archive::load` / `Archive::load_full`.  Multi-byte integers are stored in
the host's (x86-64, little-endian) byte order, as produced by writing the
packed struct fields directly. -/

/-- Little-endian byte encoding of a value in `n` bytes (the in-memory
layout of a fixed-width unsigned integer field as written by
`out.write(reinterpret_cast<const char*>(&field), sizeof(field))`). -/
def leBytes : Nat → Nat → List Nat
  | 0, _ => []
  | n + 1, v => v % 256 :: leBytes n (v / 256)

/-- Little-endian value of a byte list, as obtained by `file.read` into a
fixed-width unsigned integer field. -/
def leVal : List Nat → Nat
  | [] => 0
  | b :: bs => b + 256 * leVal bs

/-- The bytes `strncpy`'d into `header.magic` by `Archive::create`:
`ARCHIVE_MAGIC = "KNDL"` plus its terminating NUL (the array is 5 bytes). -/
def MAGIC : List Nat := [75, 78, 68, 76, 0]

/-- The packed `ArchiveHeader` struct. -/
structure ArchiveHeader where
  magic : List Nat
  version : Nat
  flags : Nat
  timestamp : Nat
  crc32 : Nat
deriving DecidableEq

/-- Memory/file image of the packed `ArchiveHeader`:
`magic[5] | version:u8 | flags:u8 | timestamp:u64 | crc32:u32`, 19 bytes. -/
def headerBytes (h : ArchiveHeader) : List Nat :=
  h.magic ++ [h.version % 256, h.flags % 256] ++ leBytes 8 h.timestamp ++ leBytes 4 h.crc32

/-- Header of a fresh archive as set up by `Archive::create`: magic,
`ARCHIVE_VERSION = 1`, flags `ArchiveFlag::None = 1 << 0`, the creation
timestamp (a runtime input, passed as a parameter here), and a
zero-initialized crc32. -/
def createHeader (ts : Nat) : ArchiveHeader :=
  { magic := MAGIC, version := 1, flags := 1, timestamp := ts, crc32 := 0 }

/-- The `ArchiveFile` entry record.  `type` is the `FileType` byte
(0 Regular, 1 Directory, 2 Symlink); `path` is the byte string of the
stored path.  The program maintains `path_length = path.length`. -/
structure ArchiveFile where
  offset : Nat
  size : Nat
  perm0 : Nat
  perm1 : Nat
  perm2 : Nat
  type : Nat
  path_length : Nat
  data_length : Nat
  path : List Nat
deriving DecidableEq

/-- Body of the per-entry write loop in `Archive::compress` (and the
identical loop in `compress_parallel`): appends, in statement order,
offset, size, the 3 permission bytes, the type byte, path_length,
data_length, and the raw path bytes (no null terminator). -/
def entryWrite (out : List Nat) (e : ArchiveFile) : List Nat :=
  ((((((out ++ leBytes 8 e.offset) ++ leBytes 8 e.size)
      ++ [e.perm0 % 256, e.perm1 % 256, e.perm2 % 256]) ++ [e.type % 256])
      ++ leBytes 8 e.path_length) ++ leBytes 8 e.data_length) ++ e.path

/-- The sequential writes shared verbatim by `Archive::compress` and
`Archive::compress_parallel`: header (with crc32 recomputed over the data
buffer via `crc32_simd` on x86-64), entry count as u64, the entry records,
and the data-section length as u64. -/
def writeTable (sse42 : Bool) (hdr : ArchiveHeader) (files : List ArchiveFile)
    (data : List Nat) : List Nat :=
  let header_copy : ArchiveHeader := { hdr with crc32 := crc32_simd sse42 data }
  let out := headerBytes header_copy
  let out := out ++ leBytes 8 files.length
  let out := files.foldl entryWrite out
  out ++ leBytes 8 data.length

/-- In-memory `Archive` state relevant to (de)serialization and data
access: the header, the file table, the data buffer, and the lazy-loading
bookkeeping (`archive_file_path` is modelled by passing the backing file's
bytes to `get_file_data` directly). -/
structure Archive where
  header : ArchiveHeader
  files : List ArchiveFile
  data : List Nat
  lazy_loaded : Bool
  data_section_offset : Nat
deriving DecidableEq

/-- Model of `Archive::compress`: the sequential table writes followed by the raw
data bytes. -/
def Archive.compress (sse42 : Bool) (a : Archive) : List Nat :=
  writeTable sse42 a.header a.files a.data ++ a.data

/-- Per-entry record layout asserted by claim C3 as frozen: offset, size,
perm[3], type, path_len, then immediately the raw path bytes. -/
def claimedEntryLayout (e : ArchiveFile) : List Nat :=
  leBytes 8 e.offset ++ leBytes 8 e.size
    ++ [e.perm0 % 256, e.perm1 % 256, e.perm2 % 256] ++ [e.type % 256]
    ++ leBytes 8 e.path_length ++ e.path

/-- Archive image asserted by claim C3 as frozen: header, entry count
(u64), the claimed entry records, data-section length (u64), data bytes. -/
def claimedLayout (sse42 : Bool) (a : Archive) : List Nat :=
  headerBytes { a.header with crc32 := crc32_simd sse42 a.data }
    ++ leBytes 8 a.files.length ++ (a.files.map claimedEntryLayout).flatten
    ++ leBytes 8 a.data.length ++ a.data

/-- Per-entry record layout of the amended claim C3: offset, size,
perm[3], type, path_len, data_len, then the raw path bytes. -/
def entryLayout (e : ArchiveFile) : List Nat :=
  leBytes 8 e.offset ++ leBytes 8 e.size
    ++ [e.perm0 % 256, e.perm1 % 256, e.perm2 % 256] ++ [e.type % 256]
    ++ leBytes 8 e.path_length ++ leBytes 8 e.data_length ++ e.path

/-- Archive image of the amended claim C3: header, entry count (u64), the
entry records (with data_len), data-section length (u64), data bytes. -/
def amendedLayout (sse42 : Bool) (a : Archive) : List Nat :=
  headerBytes { a.header with crc32 := crc32_simd sse42 a.data }
    ++ leBytes 8 a.files.length ++ (a.files.map entryLayout).flatten
    ++ leBytes 8 a.data.length ++ a.data

/-- Modelled from `std::ifstream::read` as used by this program: a read of
`n` bytes at `pos` extracts the available bytes; destination bytes beyond
what was extracted keep their zero-initialized values (every read target in
`load`/`load_full`/`get_file_data` is zero-initialized), so a short read
yields zero padding, and after a short read the position is past the end so
subsequent reads contribute only zeros. -/
def readBytes (input : List Nat) (pos n : Nat) : List Nat :=
  let avail := (input.drop pos).take n
  avail ++ List.replicate (n - avail.length) 0

/-- Read a u64 field. -/
def readU64 (input : List Nat) (pos : Nat) : Nat := leVal (readBytes input pos 8)

/-- Read a u8 field. -/
def readU8 (input : List Nat) (pos : Nat) : Nat := leVal (readBytes input pos 1)

/-- Body of the entry-reading loop shared by `Archive::load` and
`Archive::load_full`: the fixed fields in statement order, then
`path_length` path bytes.  Returns the entry and the stream position after
it. -/
def readEntry (input : List Nat) (pos : Nat) : ArchiveFile × Nat :=
  ({ offset := readU64 input pos
     size := readU64 input (pos + 8)
     perm0 := readU8 input (pos + 16)
     perm1 := readU8 input (pos + 17)
     perm2 := readU8 input (pos + 18)
     type := readU8 input (pos + 19)
     path_length := readU64 input (pos + 20)
     data_length := readU64 input (pos + 28)
     path := readBytes input (pos + 36) (readU64 input (pos + 20)) },
   pos + 36 + readU64 input (pos + 20))

/-- The entry-reading loop: `count` iterations of `readEntry`. -/
def readEntries (input : List Nat) : Nat → Nat → List ArchiveFile × Nat
  | pos, 0 => ([], pos)
  | pos, n + 1 =>
      let ep := readEntry input pos
      let rest := readEntries input ep.2 n
      (ep.1 :: rest.1, rest.2)

/-- The 19 header bytes as left by `file.read` into the header of the
freshly created archive: input bytes overwrite the front, any missing tail
keeps the values from `Archive::create`. -/
def readHeaderBytes (ts : Nat) (input : List Nat) : List Nat :=
  let dflt := headerBytes (createHeader ts)
  input.take 19 ++ dflt.drop (input.take 19).length

/-- The load-time validation: `strncmp(header.magic, ARCHIVE_MAGIC, 4)`
and the version comparison — only the first four magic bytes and the
version byte are checked. -/
def headerCheckOk (hb : List Nat) : Bool :=
  hb.take 4 == [75, 78, 68, 76] && hb.getD 5 0 == 1

/-- Header fields of the packed struct image. -/
def headerOfBytes (hb : List Nat) : ArchiveHeader :=
  { magic := hb.take 5
    version := hb.getD 5 0
    flags := hb.getD 6 0
    timestamp := leVal ((hb.drop 7).take 8)
    crc32 := leVal ((hb.drop 15).take 4) }

/-- Model of `Archive::load` (lazy): read header, check magic/version, read the
entry count and the entries, read (and drop) the data-section size, and
record `data_section_offset = file.tellg()` — which is `pos_type(-1)`
(stored into the u64 member as `2^64 - 1`) if any read came up short.
After the magic/version check there is no failure exit. -/
def Archive.load (ts : Nat) (input : List Nat) : Option Archive :=
  let hb := readHeaderBytes ts input
  if headerCheckOk hb then
    let file_count := readU64 input 19
    let es := readEntries input 27 file_count
    let pos2 := es.2 + 8
    some { header := headerOfBytes hb
           files := es.1
           data := []
           lazy_loaded := true
           data_section_offset := if pos2 ≤ input.length then pos2 else 2 ^ 64 - 1 }
  else none

/-- Model of `Archive::load_full`: like `load` but reads the data section into
memory and validates its CRC32 (via `crc32_simd` on x86-64) against the
header field, returning `nullptr` on mismatch. -/
def Archive.load_full (sse42 : Bool) (ts : Nat) (input : List Nat) : Option Archive :=
  let hb := readHeaderBytes ts input
  if headerCheckOk hb then
    let file_count := readU64 input 19
    let es := readEntries input 27 file_count
    let data_size := readU64 input es.2
    let data := readBytes input (es.2 + 8) data_size
    if leVal ((hb.drop 15).take 4) = crc32_simd sse42 data then
      some { header := headerOfBytes hb
             files := es.1
             data := data
             lazy_loaded := false
             data_section_offset := 0 }
    else none
  else none

/-- Model of `Archive::get_file_data(const ArchiveFile&)`.  Directories yield no
bytes.  In lazy mode the bytes are read positionally from the backing
archive file (`backing` models reopening `archive_file_path`) at the u64
sum `data_section_offset + offset` (wrap-around modulo 2^64) with no
validation of any kind.  In eager mode the source compares the u64 sum
`file.offset + file.data_length` — which wraps modulo 2^64 — with
`data.size()` and fails only when the wrapped sum exceeds the buffer
size; otherwise `file_data` is resized to `data_length` bytes and
`fast_memcpy` fills all of them from `data.data() + offset` (the memory
pool does not change the observable result).  When the wrap-bypassed
source range extends past the buffer, the source's copy reads adjacent
memory — undefined behavior; the model fixes those bytes to 0 (the
`readBytes` zero padding), and no theorem below depends on their values,
only on the returned length. -/
def Archive.get_file_data (a : Archive) (backing : List Nat) (f : ArchiveFile) : List Nat :=
  if f.type = 1 then []
  else if a.lazy_loaded then
    readBytes backing ((a.data_section_offset + f.offset) % 2 ^ 64) f.data_length
  else if (f.offset + f.data_length) % 2 ^ 64 > a.data.length then []
  else readBytes a.data f.offset f.data_length

/-- Overwrite bytes of a file image starting at position `p`
(`seekp(p)` followed by `write`; seeking past the current end zero-fills
the gap, as the filesystem does for sparse writes). -/
def writeAt (f : List Nat) (p : Nat) (bs : List Nat) : List Nat :=
  f.take p ++ List.replicate (p - f.length) 0 ++ bs ++ f.drop (p + bs.length)

/-- Chunk size chosen by `compress_parallel`: `data_size / (num_threads*2)`
clamped to [256 KiB, 8 MiB]. -/
def chunkSizeFor (numThreads dataSize : Nat) : Nat :=
  max (256 * 1024) (min (8 * 1024 * 1024) (dataSize / (numThreads * 2)))

/-- Number of chunks the data section is split into. -/
def numChunks (numThreads dataSize : Nat) : Nat :=
  (dataSize + chunkSizeFor numThreads dataSize - 1) / chunkSizeFor numThreads dataSize

/-- Data bytes of chunk `i` in `compress_parallel`: `chunk_start = i*cs`,
`chunk_end = min(chunk_start + cs, data_size)`, slice
`[chunk_start, chunk_end)` of the data buffer. -/
def chunkSlice (data : List Nat) (cs i : Nat) : List Nat :=
  (data.drop (i * cs)).take (min (i * cs + cs) data.length - i * cs)

/-- The thread count `compress_parallel` resolves before comparing with 1:
an explicit request wins, otherwise the configured/detected count `hw`,
then clamped by the number of files. -/
def resolveThreads (hw num_threads : Nat) (fileCount : Nat) : Nat :=
  min (if num_threads = 0 then hw else num_threads) fileCount

/-- Model of `Archive::compress_parallel`.  `hw` models
`thread_count > 0 ? thread_count : hardware_concurrency()`.  With a
resolved thread count of at most 1 it falls back to `compress`.  Otherwise
it writes the table sequentially, pre-extends the file by seeking to
`data_start + data_size - 1` and writing one byte (the NUL of `""`), and
then the workers write the data chunks — chunk `i` covers data bytes
`[i*cs, min(i*cs+cs, data_size))` and is written at absolute position
`data_start + i*cs`.  Chunk indices are claimed via an atomic counter and
written concurrently to disjoint ranges; `order` is the temporal order in
which the chunk writes reach the file, so any permutation of
`0..numChunks-1` is a possible schedule. -/
def Archive.compress_parallel (sse42 : Bool) (hw : Nat) (a : Archive)
    (num_threads : Nat) (order : List Nat) : List Nat :=
  if resolveThreads hw num_threads a.files.length ≤ 1 then a.compress sse42
  else if a.data.length > 0 then
    order.foldl (fun file i =>
        writeAt file ((writeTable sse42 a.header a.files a.data).length
            + i * chunkSizeFor (resolveThreads hw num_threads a.files.length) a.data.length)
          (chunkSlice a.data
            (chunkSizeFor (resolveThreads hw num_threads a.files.length) a.data.length) i))
      (writeAt (writeTable sse42 a.header a.files a.data)
        ((writeTable sse42 a.header a.files a.data).length + a.data.length - 1) [0])
  else
    writeAt (writeTable sse42 a.header a.files a.data)
      ((writeTable sse42 a.header a.files a.data).length + a.data.length - 1) [0]

/-- Invariant of the parallel data-section writes to the output file:
the bytes below the table boundary are those of the sequentially written
table, and data position `j` holds its data byte exactly when its chunk
(`j / cs`) has already been written (`P`), otherwise the preallocated
zero. -/
def ChunkInv (T data : List Nat) (cs : Nat) (P : Nat → Bool) (file : List Nat) : Prop :=
  file.length = T.length + data.length ∧
  (∀ i, i < T.length → file[i]? = T[i]?) ∧
  (∀ j, j < data.length → file[T.length + j]? = if P (j / cs) then data[j]? else some 0)


/-! ## Concrete inputs used by the counterexample / failing-input theorems -/

/-- A one-file archive: path "a", contents "hello". -/
def exArchive : Archive :=
  { header := createHeader 0
    files := [{ offset := 0, size := 6, perm0 := 6, perm1 := 4, perm2 := 4,
                type := 0, path_length := 1, data_length := 5, path := [97] }]
    data := [104, 101, 108, 108, 111]
    lazy_loaded := false
    data_section_offset := 0 }

/-- A one-file archive: path "a", contents the single byte 0x68. -/
def c2Archive : Archive :=
  { header := createHeader 0
    files := [{ offset := 0, size := 2, perm0 := 6, perm1 := 4, perm2 := 4,
                type := 0, path_length := 1, data_length := 1, path := [97] }]
    data := [104]
    lazy_loaded := false
    data_section_offset := 0 }

/-- Default entry used with `List.getD`. -/
def defaultEntry : ArchiveFile :=
  { offset := 0, size := 0, perm0 := 0, perm1 := 0, perm2 := 0,
    type := 0, path_length := 0, data_length := 0, path := [] }

/-- The archive `c2Archive` persisted and then corrupted by flipping its single
data-section byte (the last byte of the file) from 0x68 to 0x69. -/
def c2Corrupted : List Nat := (Archive.compress false c2Archive).dropLast ++ [105]

/-- An archive file whose single entry declares `offset = 5`,
`data_length = 2` against a 2-byte data section — the range
`[5, 7)` lies entirely outside the data section. -/
def c5Input : List Nat :=
  headerBytes { createHeader 0 with crc32 := crc32 [7, 8] }
    ++ leBytes 8 1
    ++ entryLayout { offset := 5, size := 0, perm0 := 6, perm1 := 4, perm2 := 4,
                     type := 0, path_length := 1, data_length := 2, path := [97] }
    ++ leBytes 8 2 ++ [7, 8]

/-- A two-entry archive with a 3-byte data buffer, used to witness the
parallel path of `compress_parallel`. -/
def c9Archive : Archive :=
  { header := createHeader 0
    files := [defaultEntry, defaultEntry]
    data := [1, 2, 3]
    lazy_loaded := false
    data_section_offset := 0 }

/-- An eagerly loaded archive with an empty data buffer. -/
def c5EagerArchive : Archive :=
  { header := createHeader 0, files := [], data := [],
    lazy_loaded := false, data_section_offset := 0 }

/-- A regular-file entry whose range [1, 2) exceeds an empty data buffer. -/
def c5WitnessEntry : ArchiveFile :=
  { offset := 1, size := 0, perm0 := 6, perm1 := 4, perm2 := 4,
    type := 0, path_length := 0, data_length := 1, path := [] }

/-- An eagerly loaded archive whose 2-byte data section is targeted by a
wrap-around entry. -/
def c5WrapArchive : Archive :=
  { header := createHeader 0, files := [], data := [7, 8],
    lazy_loaded := false, data_section_offset := 0 }

/-- A regular-file entry whose u64 sum offset + data_length wraps: offset
2^64 - 1 and length 2 give a wrapped sum of 1, so the eager bounds check
passes although the range lies entirely outside the data section. -/
def c5WrapEntry : ArchiveFile :=
  { offset := 2 ^ 64 - 1, size := 0, perm0 := 6, perm1 := 4, perm2 := 4,
    type := 0, path_length := 0, data_length := 2, path := [] }

/-- A truncated archive file: valid magic and version, but the file ends
three bytes into the entry count (declaring 7 entries with no entry
bytes at all). -/
def c10Truncated : List Nat :=
  [75, 78, 68, 76, 0, 1, 1, 0, 0, 0, 0, 0, 0, 0, 0, 0, 0, 0, 0] ++ [7, 0, 0]

/-! ## File-table build model: add_file / add_directory / remove_file

Filesystem paths are modelled as lists of path components — the image of
`normalize_path` (a lexically normal relative path, no trailing slash, no
`.`/`..`); the filesystem itself is a finite association list from such
paths to nodes.  Entry paths in this model are component lists; the
serialized byte form is the components joined with `/`. -/

/-- A filesystem node: a regular file with its contents, a directory, or a
symbolic link with its target path string (as a byte list); each carries
the permission bits returned by `fs::status(p).permissions()`. -/
inductive FNode where
  | regular (perms : Nat) (content : List Nat)
  | dir (perms : Nat)
  | symlink (perms : Nat) (target : List Nat)
deriving DecidableEq

/-- A finite filesystem. -/
abbrev FS : Type := List (List String × FNode)

/-- Path lookup on the modelled filesystem. -/
def lookupFS (fs : FS) (p : List String) : Option FNode :=
  (List.find? (fun e => decide (e.1 = p)) fs).map (fun e => e.2)

/-- Whether a node is a directory. -/
def FNode.isDir : FNode → Bool
  | .dir _ => true
  | _ => false

/-- The permission bits of a node. -/
def FNode.permBits : FNode → Nat
  | .regular pm _ => pm
  | .dir pm => pm
  | .symlink pm _ => pm

/-- Model of `fs::exists`. -/
def fsExists (fs : FS) (p : List String) : Bool := (lookupFS fs p).isSome

/-- Model of `fs::is_directory`. -/
def fsIsDir (fs : FS) (p : List String) : Bool :=
  ((lookupFS fs p).map FNode.isDir).getD false

/-- Model of `fs::status(p).permissions()` as raw bits. -/
def fsPerms (fs : FS) (p : List String) : Nat :=
  ((lookupFS fs p).map FNode.permBits).getD 0

/-- Model of `fs::directory_iterator`: the immediate children of `d`, in
filesystem order. -/
def childrenFS (fs : FS) (d : List String) : List (List String × FNode) :=
  List.filter (fun e => decide (e.1.length = d.length + 1 ∧ e.1.take d.length = d)) fs

/-- The `FileType` enum. -/
inductive FileType where
  | Regular
  | Directory
  | Symlink
deriving DecidableEq

/-- The path string of a component path (components joined with `/`). -/
def joinPath (p : List String) : String := String.intercalate "/" p

/-- Byte length of the stored path (`normalized_path.size()`). -/
def pathLen (p : List String) : Nat := (joinPath p).length

/-- An `ArchiveFile` as built by the add operations, with the path kept in
component form. -/
structure BEntry where
  offset : Nat
  size : Nat
  perm0 : Nat
  perm1 : Nat
  perm2 : Nat
  type : FileType
  path_length : Nat
  data_length : Nat
  path : List String
deriving DecidableEq

/-- The mutable archive state touched by the build operations. -/
structure BArchive where
  files : List BEntry
  data : List Nat
deriving DecidableEq

/-- A freshly created archive: empty table, empty data buffer. -/
def emptyBArchive : BArchive := { files := [], data := [] }

/-- Directory entry as constructed by `add_directory` and
`add_parent_directories`: offset at the current buffer end, `size` equal
to the path length, no data, permissions split into the three 3-bit
groups. -/
def mkDirEntry (pm : Nat) (p : List String) (dataEnd : Nat) : BEntry :=
  { offset := dataEnd
    size := pathLen p
    perm0 := (pm >>> 6) &&& 7
    perm1 := (pm >>> 3) &&& 7
    perm2 := pm &&& 7
    type := FileType.Directory
    path_length := pathLen p
    data_length := 0
    path := p }

/-- The proper ancestor prefixes of `p` from root to immediate parent:
the `while` loop collects `parent_path`, `parent_path.parent_path`, … and
the insertion loop walks them in reverse, i.e. `p.take 1, p.take 2, …,
p.take (p.length - 1)`. -/
def parentPrefixes (p : List String) : List (List String) :=
  (List.range (p.length - 1)).map (fun k => p.take (k + 1))

/-- Loop body of `Archive::add_parent_directories`: skip the parent if a
directory entry for it already exists, otherwise insert a directory entry
(without recursing) provided the parent exists on the filesystem as a
directory. -/
def apdStep (fs : FS) (acc : BArchive) (q : List String) : BArchive :=
  if (List.find? (fun e => decide (e.path = q ∧ e.type = FileType.Directory)) acc.files).isSome then
    acc
  else if fsExists fs q && fsIsDir fs q then
    { acc with files := acc.files ++ [mkDirEntry (fsPerms fs q) q acc.data.length] }
  else acc

/-- Model of `Archive::add_parent_directories`. -/
def add_parent_directories (fs : FS) (A : BArchive) (p : List String) : BArchive :=
  (parentPrefixes p).foldl (apdStep fs) A

/-- Regular/symlink entry as constructed by `add_file`:
`size = data_length + path_length`, data appended at the buffer end. -/
def mkDataEntry (pm : Nat) (p : List String) (ty : FileType) (bytes : List Nat)
    (dataEnd : Nat) : BEntry :=
  { offset := dataEnd
    size := bytes.length + pathLen p
    perm0 := (pm >>> 6) &&& 7
    perm1 := (pm >>> 3) &&& 7
    perm2 := pm &&& 7
    type := ty
    path_length := pathLen p
    data_length := bytes.length
    path := p }

mutual

/-- Model of `Archive::add_file`, fuel-indexed (the fuel only bounds the
`add_directory` recursion depth; every path of interest is reached with
fuel at least the longest filesystem path, and running out of fuel is a
no-op).  Missing paths fail with a not-found signal (`none`); a directory
delegates to `add_directory`; an entry already present (same path,
non-directory type) is returned as-is; otherwise ancestors are
materialized, the entry is built and appended, and the file bytes
(respectively the symlink target) are appended to the data buffer.
Returns the updated archive and the index of the returned entry. -/
def addFileFuel : Nat → FS → BArchive → List String → BArchive × Option Nat
  | 0, _, A, _ => (A, none)
  | fuel + 1, fs, A, p =>
    match lookupFS fs p with
    | none => (A, none)
    | some (.dir _) => addDirFuel fuel fs A p
    | some (.regular pm content) =>
      match List.findIdx? (fun e => decide (e.path = p ∧ e.type ≠ FileType.Directory)) A.files with
      | some i => (A, some i)
      | none =>
          let A1 := add_parent_directories fs A p
          ({ files := A1.files ++ [mkDataEntry pm p FileType.Regular content A1.data.length]
             data := A1.data ++ content }, some A1.files.length)
    | some (.symlink pm target) =>
      match List.findIdx? (fun e => decide (e.path = p ∧ e.type ≠ FileType.Directory)) A.files with
      | some i => (A, some i)
      | none =>
          let A1 := add_parent_directories fs A p
          ({ files := A1.files ++ [mkDataEntry pm p FileType.Symlink target A1.data.length]
             data := A1.data ++ target }, some A1.files.length)

/-- Model of `Archive::add_directory`, fuel-indexed: missing or non-directory paths
fail; ancestors are materialized first, then an existing directory entry is
returned as-is (before any recursion); otherwise the directory entry is
appended and the children are visited recursively in filesystem order,
directories via `add_directory` and the rest via `add_file`. -/
def addDirFuel : Nat → FS → BArchive → List String → BArchive × Option Nat
  | 0, _, A, _ => (A, none)
  | fuel + 1, fs, A, p =>
    match lookupFS fs p with
    | some (.dir pm) =>
        let A1 := add_parent_directories fs A p
        match List.findIdx? (fun e => decide (e.path = p ∧ e.type = FileType.Directory)) A1.files with
        | some i => (A1, some i)
        | none =>
            let A2 : BArchive :=
              { A1 with files := A1.files ++ [mkDirEntry pm p A1.data.length] }
            let A3 := (childrenFS fs p).foldl (fun acc child =>
                if child.2.isDir then (addDirFuel fuel fs acc child.1).1
                else (addFileFuel fuel fs acc child.1).1) A2
            (A3, some A1.files.length)
    | _ => (A, none)

end

/-- Fuel bound sufficient for every recursion the filesystem can trigger. -/
def bigFuel (fs : FS) : Nat :=
  (List.foldr (fun e m => max e.1.length m) 0 fs) + 2

/-- Model of `Archive::add_file` on normalized component paths. -/
def add_file (fs : FS) (A : BArchive) (p : List String) : BArchive × Option Nat :=
  addFileFuel (bigFuel fs) fs A p

/-- Model of `Archive::add_directory` on normalized component paths. -/
def add_directory (fs : FS) (A : BArchive) (p : List String) : BArchive × Option Nat :=
  addDirFuel (bigFuel fs) fs A p

/-- Model of `Archive::remove_file`: erase the first table row whose path matches
(`std::find_if` + `erase`), reporting `false` (the "File not found"
signal) when no row matches. -/
def remove_file (A : BArchive) (p : List String) : BArchive × Bool :=
  match List.findIdx? (fun e => decide (e.path = p)) A.files with
  | some i => ({ A with files := A.files.eraseIdx i }, true)
  | none => (A, false)

/-- A build-time operation sequence element. -/
inductive BuildOp where
  | file (p : List String)
  | dir (p : List String)
deriving DecidableEq

/-- Run one build operation. -/
def applyOp (fs : FS) (A : BArchive) : BuildOp → BArchive
  | .file p => (add_file fs A p).1
  | .dir p => (add_directory fs A p).1

/-- An archive built from a fresh one by a sequence of
`add_file`/`add_directory` calls. -/
def buildArchive (fs : FS) (ops : List BuildOp) : BArchive :=
  ops.foldl (applyOp fs) emptyBArchive

/-- A directory entry for path `q` is present in the table. -/
def DirPresent (files : List BEntry) (q : List String) : Prop :=
  ∃ e ∈ files, e.path = q ∧ e.type = FileType.Directory

/-- Default entry used with `List.getD` over build-model tables. -/
def defaultBEntry : BEntry :=
  { offset := 0, size := 0, perm0 := 0, perm1 := 0, perm2 := 0,
    type := FileType.Regular, path_length := 0, data_length := 0, path := [] }

/-- The ancestor invariant: every proper prefix of every entry's path has
a Directory entry at an earlier table position. -/
def AncestorsBefore (files : List BEntry) : Prop :=
  ∀ i, i < files.length → ∀ k, k < (files.getD i defaultBEntry).path.length → 0 < k →
    ∃ j, j < i ∧ (files.getD j defaultBEntry).path = (files.getD i defaultBEntry).path.take k ∧
      (files.getD j defaultBEntry).type = FileType.Directory

/-- Well-formedness of the modelled filesystem: every proper ancestor
prefix of an existing path exists and is a directory (true of any real
filesystem tree). -/
def WFfs (fs : FS) : Prop :=
  ∀ e ∈ fs, ∀ k, k < e.1.length → 0 < k → fsIsDir fs (e.1.take k) = true

/-- A concrete well-formed filesystem: directories `a`, `a/b` and a
regular file `a/b/c`. -/
def c7fs : FS :=
  [(["a"], FNode.dir 493), (["a", "b"], FNode.dir 493),
   (["a", "b", "c"], FNode.regular 420 [9, 9])]

/-- A build sequence adding the nested file. -/
def c7ops : List BuildOp := [BuildOp.file ["a", "b", "c"]]

/-- Predicate: `B`'s table extends `A`'s by appended rows only (the add operations
never remove or modify existing rows). -/
def FilesExtend (A B : BArchive) : Prop := ∃ t, B.files = A.files ++ t

/-- Predicate: `r` is a (possibly improper) prefix of `q` in component form. -/
def isPre (r q : List String) : Prop := q.take r.length = r

/-- A two-entry table used to witness `remove_file`. -/
def c8Table : BArchive :=
  { files := [{ defaultBEntry with path := ["a"], type := FileType.Directory },
              { defaultBEntry with path := ["a", "b"], offset := 3, data_length := 2 }]
    data := [1, 2, 3, 4, 5] }

instance (files : List BEntry) : Decidable (AncestorsBefore files) := by
  unfold AncestorsBefore
  infer_instance

instance (fs : FS) : Decidable (WFfs fs) := by
  unfold WFfs
  infer_instance

/-! Helper lemmas: the CRC bit step is xor-linear, and eight steps of a
value shifted left by eight bits recover the value. -/

theorem shiftRight_xor_distrib (a b n : Nat) :
    (a ^^^ b) >>> n = (a >>> n) ^^^ (b >>> n) := by
  apply Nat.eq_of_testBit_eq
  intro i
  simp

theorem xor_left_comm (a b c : Nat) : a ^^^ (b ^^^ c) = b ^^^ (a ^^^ c) := by
  rw [← Nat.xor_assoc, Nat.xor_comm a b, Nat.xor_assoc]

theorem xor_xor_cancel (a b : Nat) : a ^^^ (a ^^^ b) = b := by
  rw [← Nat.xor_assoc, Nat.xor_self, Nat.zero_xor]

theorem crcStep_xor (a b : Nat) : crcStep (a ^^^ b) = crcStep a ^^^ crcStep b := by
  unfold crcStep
  have hand : (a ^^^ b) &&& 1 = (a &&& 1) ^^^ (b &&& 1) := Nat.and_xor_distrib_right
  have ha : a &&& 1 = 0 ∨ a &&& 1 = 1 := by rw [Nat.and_one_is_mod]; omega
  have hb : b &&& 1 = 0 ∨ b &&& 1 = 1 := by rw [Nat.and_one_is_mod]; omega
  rw [shiftRight_xor_distrib]
  rcases ha with h1 | h1 <;> rcases hb with h2 | h2 <;>
    rw [hand, h1, h2] <;>
    simp [Nat.xor_assoc, Nat.xor_comm, xor_left_comm, xor_xor_cancel]

theorem crcStep_iterate_xor (n a b : Nat) :
    crcStep^[n] (a ^^^ b) = crcStep^[n] a ^^^ crcStep^[n] b := by
  induction n generalizing a b with
  | zero => simp
  | succ n ih =>
      rw [Function.iterate_succ_apply, Function.iterate_succ_apply,
        Function.iterate_succ_apply, crcStep_xor, ih]

theorem crcStep_iterate_shiftLeft (n z : Nat) : crcStep^[n] (z <<< n) = z := by
  induction n generalizing z with
  | zero => simp
  | succ n ih =>
      rw [Function.iterate_succ_apply]
      have heven : (z <<< (n + 1)) &&& 1 = 0 := by
        rw [Nat.and_one_is_mod, Nat.shiftLeft_eq]
        have : z * 2 ^ (n + 1) = (z * 2 ^ n) * 2 := by ring
        omega
      have hstep : crcStep (z <<< (n + 1)) = z <<< n := by
        unfold crcStep
        rw [heven]
        have hsh : (z <<< (n + 1)) >>> 1 = z <<< n := by
          rw [Nat.shiftLeft_eq, Nat.shiftLeft_eq, Nat.shiftRight_eq_div_pow]
          have : z * 2 ^ (n + 1) = (z * 2 ^ n) * 2 := by ring
          rw [this, Nat.pow_one, Nat.mul_div_cancel _ (by omega)]
        simp [hsh]
      rw [hstep, ih]

theorem and_255_xor_shift (y : Nat) : (y &&& 255) ^^^ ((y >>> 8) <<< 8) = y := by
  apply Nat.eq_of_testBit_eq
  intro i
  rw [Nat.testBit_xor, Nat.testBit_and, Nat.testBit_shiftLeft]
  have h255 : Nat.testBit 255 i = decide (i < 8) := by
    have h : (255 : Nat) = 2 ^ 8 - 1 := by norm_num
    rw [h, Nat.testBit_two_pow_sub_one]
  rw [h255]
  by_cases h : i < 8
  · have h8 : ¬ 8 ≤ i := by omega
    simp [h, h8]
  · have h8 : 8 ≤ i := by omega
    have hi : 8 + (i - 8) = i := by omega
    simp [h, h8, Nat.testBit_shiftRight, hi]

theorem crc32_update_eq_spec (crc b : Nat) (hb : b < 256) :
    crc32_update crc b = crc32_spec_update crc b := by
  unfold crc32_update crc32_spec_update crc32_table
  have hb8 : b >>> 8 = 0 := by
    rw [Nat.shiftRight_eq_div_pow]
    omega
  have h8 : (crc ^^^ b) >>> 8 = crc >>> 8 := by
    rw [shiftRight_xor_distrib, hb8, Nat.xor_zero]
  rw [← h8]
  conv_rhs => rw [← and_255_xor_shift (crc ^^^ b)]
  rw [crcStep_iterate_xor, crcStep_iterate_shiftLeft]

theorem crc32_foldl_eq_spec (l : List Nat) (h : ∀ b ∈ l, b < 256) (init : Nat) :
    l.foldl crc32_update init = l.foldl crc32_spec_update init := by
  induction l generalizing init with
  | nil => rfl
  | cons x xs ih =>
      simp only [List.foldl_cons]
      rw [crc32_update_eq_spec _ _ (h x (by simp))]
      exact ih (fun b hb => h b (by simp [hb])) _

/-- C4: for every byte buffer, the table-driven `crc32` equals the standard
CRC-32/ISO-HDLC checksum (reflected polynomial 0xEDB88320, initial value
all-ones, final value complemented); being a function of the byte list, it
is deterministic and depends only on the input bytes. -/
theorem C4_crc32_is_standard_iso_hdlc (l : List Nat) (h : ∀ b ∈ l, b < 256) :
    crc32 l = crc32_spec l := by
  unfold crc32 crc32_spec
  rw [crc32_foldl_eq_spec l h]

/-- Witness for C4 at the standard CRC check input "123456789". -/
theorem C4_witness :
    (∀ b ∈ [49, 50, 51, 52, 53, 54, 55, 56, 57], b < 256) ∧
      crc32 [49, 50, 51, 52, 53, 54, 55, 56, 57] =
        crc32_spec [49, 50, 51, 52, 53, 54, 55, 56, 57] :=
  ⟨by decide, C4_crc32_is_standard_iso_hdlc _ (by decide)⟩

/-- C1 fails on the code: with SSE4.2 available, `crc32_simd` accumulates
CRC-32C (the polynomial wired into the `_mm_crc32_*` instructions), so on
the one-byte buffer `[0x00]` it returns 0x527D5351 while the table-driven
`crc32` returns 0xD202EF8D. -/
theorem C1_crc32_simd_differs_from_crc32 :
    crc32_simd true [0] = 0x527D5351 ∧ crc32 [0] = 0xD202EF8D ∧
      crc32_simd true [0] ≠ crc32 [0] := by
  decide

/-! ## Serialization layout (C3) -/

theorem foldl_entryWrite (files : List ArchiveFile) (out : List Nat) :
    files.foldl entryWrite out = out ++ (files.map entryLayout).flatten := by
  induction files generalizing out with
  | nil => simp
  | cons e es ih =>
      simp only [List.foldl_cons, List.map_cons, List.flatten_cons, ih,
        entryWrite, entryLayout]
      simp [List.append_assoc]

/-- C3 fails on the code at a concrete archive: between the `path_len`
field and the path bytes, `Archive::compress` also writes the entry's
`data_length` as a u64, which the claimed record layout omits. -/
theorem C3_counterexample : Archive.compress false exArchive ≠ claimedLayout false exArchive := by
  decide

/-- C3 amended: each file-table entry written by `compress` consists of
offset:u64, size:u64, perm[3]:u8, type:u8, path_len:u64, data_len:u64,
followed immediately by the raw path bytes with no null terminator; the
overall write order is header, entry count (u64), the entries, data-section
length (u64), then the raw data bytes. -/
theorem C3_compress_layout (sse42 : Bool) (a : Archive) :
    a.compress sse42 = amendedLayout sse42 a := by
  unfold Archive.compress writeTable amendedLayout
  simp [foldl_entryWrite, List.append_assoc]

/-! ## Corruption detection (C2) -/

/-- C2 fails on the code in lazy mode: for the archive `c2Archive`
persisted by `compress` and corrupted by flipping the single data-section
byte, `load_full` does reject it (CRC mismatch, no archive returned), but
a lazy `load` followed by `get_file_data` on the entry silently returns
the corrupted byte 0x69 instead of reporting an integrity failure — the
validation in `load_file_data_if_needed` is never invoked. -/
theorem C2_lazy_mode_returns_corrupt_bytes :
    Archive.load_full false 0 c2Corrupted = none ∧
      (Archive.load 0 c2Corrupted).map
          (fun a => a.get_file_data c2Corrupted (a.files.getD 0 defaultEntry)) =
        some [105] ∧
      c2Archive.data = [104] := by
  decide

/-! ## Bounds validation in get_file_data (C5) -/

theorem readBytes_length (input : List Nat) (pos n : Nat) :
    (readBytes input pos n).length = n := by
  simp only [readBytes, List.length_append, List.length_replicate, List.length_take]
  omega

/-- C5 fails on the code in both modes at concrete inputs.  Lazy: loading
`c5Input` (data section of 2 bytes, entry declaring offset 5 and length 2)
and requesting the entry's bytes yields a 2-byte zero buffer instead of
failing.  Eager: the entry `c5WrapEntry` (offset 2^64 - 1, length 2)
exceeds the 2-byte data section of `c5WrapArchive`, but its u64 sum wraps
to 1, so the bounds check passes and a 2-byte buffer is returned — sourced
from outside the data section — instead of the empty failure signal. -/
theorem C5_counterexample :
    ((Archive.load 0 c5Input).map
        (fun a => ((a.files.getD 0 defaultEntry).offset,
          (a.files.getD 0 defaultEntry).data_length,
          a.get_file_data c5Input (a.files.getD 0 defaultEntry))) =
      some (5, 2, [0, 0]) ∧ 5 + 2 > 2 ∧ ([0, 0] : List Nat) ≠ []) ∧
    (c5WrapArchive.lazy_loaded = false ∧
      c5WrapEntry.offset + c5WrapEntry.data_length > c5WrapArchive.data.length ∧
      (c5WrapArchive.get_file_data [] c5WrapEntry).length = 2 ∧
      c5WrapArchive.get_file_data [] c5WrapEntry ≠ []) := by
  decide

/-- C5 amended: in eager (in-memory) mode the bounds check compares the u64
wrap-around sum `offset + data_length` (mod 2^64) with the data-section
size — a request is refused, yielding no bytes, exactly when the wrapped
sum exceeds the size, and every other request (including out-of-range ones
whose sum wraps below the size) returns a buffer of exactly `data_length`
bytes; in lazy mode no bounds validation is performed at all — the
positioned read always produces `data_length` bytes (zero-padded past the
end of the backing file) instead of failing. -/
theorem C5_wrapped_bounds (backing : List Nat) (a : Archive) (f : ArchiveFile)
    (hty : f.type ≠ 1) :
    (a.lazy_loaded = false → (f.offset + f.data_length) % 2 ^ 64 > a.data.length →
        a.get_file_data backing f = []) ∧
      (a.lazy_loaded = false → (f.offset + f.data_length) % 2 ^ 64 ≤ a.data.length →
        (a.get_file_data backing f).length = f.data_length) ∧
      (a.lazy_loaded = true →
        (a.get_file_data backing f).length = f.data_length) := by
  refine ⟨?_, ?_, ?_⟩
  · intro hl hob
    simp only [Archive.get_file_data]
    rw [if_neg hty, if_neg (by simp [hl]), if_pos hob]
  · intro hl hob
    have hnb : ¬ (f.offset + f.data_length) % 2 ^ 64 > a.data.length := by omega
    simp only [Archive.get_file_data]
    rw [if_neg hty, if_neg (by simp [hl]), if_neg hnb, readBytes_length]
  · intro hl
    simp only [Archive.get_file_data]
    rw [if_neg hty, if_pos hl, readBytes_length]

/-- Witness for C5 at a concrete eager archive and out-of-range entry. -/
theorem C5_witness :
    c5WitnessEntry.type ≠ 1 ∧
      ((c5EagerArchive.lazy_loaded = false →
          (c5WitnessEntry.offset + c5WitnessEntry.data_length) % 2 ^ 64 >
            c5EagerArchive.data.length →
          c5EagerArchive.get_file_data [] c5WitnessEntry = []) ∧
        (c5EagerArchive.lazy_loaded = false →
          (c5WitnessEntry.offset + c5WitnessEntry.data_length) % 2 ^ 64 ≤
            c5EagerArchive.data.length →
          (c5EagerArchive.get_file_data [] c5WitnessEntry).length =
            c5WitnessEntry.data_length) ∧
        (c5EagerArchive.lazy_loaded = true →
          (c5EagerArchive.get_file_data [] c5WitnessEntry).length =
            c5WitnessEntry.data_length)) :=
  ⟨by decide, C5_wrapped_bounds [] c5EagerArchive c5WitnessEntry (by decide)⟩

/-! ## Lazy load performs no validation after the header check (C10) -/

/-- C10: once the leading bytes match the magic and the version byte is 1,
`Archive::load` has no further failure exit: it returns a non-null archive
no matter how the rest of the file is truncated or malformed. -/
theorem C10_load_total_after_header_check (ts : Nat) (input : List Nat)
    (hlen : 6 ≤ input.length) (hmagic : input.take 4 = [75, 78, 68, 76])
    (hver : input.getD 5 0 = 1) :
    (Archive.load ts input).isSome := by
  have hlen19 : 4 ≤ (input.take 19).length := by
    simp only [List.length_take]
    omega
  have htake : (readHeaderBytes ts input).take 4 = input.take 4 := by
    unfold readHeaderBytes
    rw [List.take_append_of_le_length hlen19, List.take_take]
    norm_num
  have hget : (readHeaderBytes ts input).getD 5 0 = input.getD 5 0 := by
    unfold readHeaderBytes
    have h5 : 5 < (input.take 19).length := by
      simp only [List.length_take]
      omega
    rw [List.getD_eq_getElem?_getD, List.getElem?_append_left h5,
      List.getElem?_take_of_lt (by omega), List.getD_eq_getElem?_getD]
  have hcheck : headerCheckOk (readHeaderBytes ts input) = true := by
    unfold headerCheckOk
    rw [htake, hmagic, hget, hver]
    decide
  unfold Archive.load
  simp [hcheck]

/-- Witness for C10 at a concretely truncated input (7 declared entries,
zero entry bytes present). -/
theorem C10_witness :
    6 ≤ c10Truncated.length ∧ c10Truncated.take 4 = [75, 78, 68, 76] ∧
      c10Truncated.getD 5 0 = 1 ∧ (Archive.load 0 c10Truncated).isSome :=
  ⟨by decide, by decide, by decide,
    C10_load_total_after_header_check 0 c10Truncated (by decide) (by decide) (by decide)⟩

/-! ## Parallel compression writes the same bytes as sequential (C9) -/

theorem replicate_zero_concat (n : Nat) :
    List.replicate n (0 : Nat) ++ [0] = List.replicate (n + 1) 0 := by
  induction n with
  | zero => rfl
  | succ n ih =>
      rw [List.replicate_succ, List.cons_append, ih]
      simp [List.replicate_succ]

theorem writeAt_inbounds (f : List Nat) (p : Nat) (bs : List Nat)
    (hp : p + bs.length ≤ f.length) :
    writeAt f p bs = f.take p ++ bs ++ f.drop (p + bs.length) := by
  unfold writeAt
  have h0 : p - f.length = 0 := by omega
  rw [h0]
  simp

theorem writeAt_extend (f : List Nat) (p : Nat) (bs : List Nat)
    (hp : f.length ≤ p) :
    writeAt f p bs = f ++ List.replicate (p - f.length) 0 ++ bs := by
  unfold writeAt
  rw [List.take_of_length_le hp, List.drop_of_length_le (by omega)]
  simp

theorem writeAt_inbounds_length (f : List Nat) (p : Nat) (bs : List Nat)
    (hp : p + bs.length ≤ f.length) :
    (writeAt f p bs).length = f.length := by
  rw [writeAt_inbounds f p bs hp]
  simp
  omega

theorem writeAt_inbounds_getElem? (f : List Nat) (p : Nat) (bs : List Nat)
    (hp : p + bs.length ≤ f.length) (i : Nat) :
    (writeAt f p bs)[i]? =
      if i < p then f[i]?
      else if i < p + bs.length then bs[i - p]?
      else f[i]? := by
  rw [writeAt_inbounds f p bs hp]
  have htl : (f.take p).length = p := by
    simp
    omega
  have htbl : (f.take p ++ bs).length = p + bs.length := by
    simp [htl]
  by_cases h1 : i < p
  · rw [List.getElem?_append_left (by omega : i < (f.take p ++ bs).length),
      List.getElem?_append_left (by omega : i < (f.take p).length),
      List.getElem?_take, if_pos h1, if_pos h1]
  · rw [if_neg h1]
    by_cases h2 : i < p + bs.length
    · rw [List.getElem?_append_left (by omega : i < (f.take p ++ bs).length),
        List.getElem?_append_right (by omega : (f.take p).length ≤ i),
        htl, if_pos h2]
    · rw [List.getElem?_append_right (by omega : (f.take p ++ bs).length ≤ i),
        htbl, if_neg h2, List.getElem?_drop]
      congr 1
      omega

theorem chunkSlice_length (data : List Nat) (cs c : Nat) :
    (chunkSlice data cs c).length = min (c * cs + cs) data.length - c * cs := by
  simp [chunkSlice]
  omega

theorem chunkSlice_getElem? (data : List Nat) (cs c k : Nat)
    (hk : k < min (c * cs + cs) data.length - c * cs) :
    (chunkSlice data cs c)[k]? = data[c * cs + k]? := by
  unfold chunkSlice
  rw [List.getElem?_take, if_pos hk, List.getElem?_drop]

theorem chunkSizeFor_pos (nt ds : Nat) : 0 < chunkSizeFor nt ds := by
  unfold chunkSizeFor
  omega

theorem chunk_start_lt (cs ds c : Nat) (hcs : 0 < cs) (hc : c < (ds + cs - 1) / cs) :
    c * cs < ds := by
  have h2 : (c + 1) * cs ≤ ds + cs - 1 := (Nat.le_div_iff_mul_le hcs).mp hc
  rw [Nat.succ_mul] at h2
  omega

theorem div_lt_numChunks (cs ds j : Nat) (hcs : 0 < cs) (hj : j < ds) :
    j / cs < (ds + cs - 1) / cs := by
  have hdm := Nat.div_add_mod (ds + cs - 1) cs
  have hmod : (ds + cs - 1) % cs < cs := Nat.mod_lt _ hcs
  have hds : ds ≤ cs * ((ds + cs - 1) / cs) := by
    generalize cs * ((ds + cs - 1) / cs) = X at hdm ⊢
    omega
  apply (Nat.div_lt_iff_lt_mul hcs).mpr
  calc j < ds := hj
    _ ≤ cs * ((ds + cs - 1) / cs) := hds
    _ = (ds + cs - 1) / cs * cs := Nat.mul_comm _ _

theorem chunkInv_congr (T data : List Nat) (cs : Nat) (P Q : Nat → Bool)
    (file : List Nat) (hpq : ∀ x, P x = Q x) (h : ChunkInv T data cs P file) :
    ChunkInv T data cs Q file := by
  obtain ⟨h1, h2, h3⟩ := h
  refine ⟨h1, h2, fun j hj => ?_⟩
  rw [← hpq]
  exact h3 j hj

theorem chunkInv_base (T data : List Nat) (cs : Nat) :
    ChunkInv T data cs (fun _ => false) (T ++ List.replicate data.length 0) := by
  refine ⟨by simp, fun i hi => ?_, fun j hj => ?_⟩
  · exact List.getElem?_append_left hi
  · rw [List.getElem?_append_right (by omega)]
    simp [hj]

theorem chunkInv_write (T data : List Nat) (cs : Nat) (P : Nat → Bool)
    (file : List Nat) (c : Nat) (hcs : 0 < cs) (hc : c * cs < data.length)
    (h : ChunkInv T data cs P file) :
    ChunkInv T data cs (fun x => decide (x = c) || P x)
      (writeAt file (T.length + c * cs) (chunkSlice data cs c)) := by
  obtain ⟨hlen, hpre, hdata⟩ := h
  have hbs := chunkSlice_length data cs c
  have hinb : (T.length + c * cs) + (chunkSlice data cs c).length ≤ file.length := by
    rw [hlen, hbs]
    omega
  refine ⟨?_, fun i hi => ?_, fun j hj => ?_⟩
  · rw [writeAt_inbounds_length _ _ _ hinb, hlen]
  · rw [writeAt_inbounds_getElem? _ _ _ hinb, if_pos (by omega)]
    exact hpre i hi
  · rw [writeAt_inbounds_getElem? _ _ _ hinb]
    by_cases h1 : j < c * cs
    · rw [if_pos (by omega), hdata j hj]
      have hne : j / cs ≠ c := by
        have := (Nat.div_lt_iff_lt_mul hcs).mpr h1
        omega
      simp [hne]
    · by_cases h2 : j < c * cs + (chunkSlice data cs c).length
      · rw [if_neg (by omega), if_pos (by omega)]
        rw [hbs] at h2
        have hdiv : j / cs = c := by
          apply Nat.div_eq_of_lt_le (by omega)
          rw [Nat.succ_mul]
          omega
        have hidx2 : T.length + j - (T.length + c * cs) = j - c * cs := by omega
        rw [hidx2, chunkSlice_getElem? data cs c (j - c * cs) (by omega)]
        have hidx : c * cs + (j - c * cs) = j := by omega
        rw [hidx, hdiv]
        simp
      · rw [if_neg (by omega), if_neg (by omega), hdata j hj]
        rw [hbs] at h2
        have hne : j / cs ≠ c := by
          have hge : c * cs + cs ≤ j := by omega
          have : c + 1 ≤ j / cs := by
            apply (Nat.le_div_iff_mul_le hcs).mpr
            rw [Nat.succ_mul]
            omega
          omega
        simp [hne]

theorem chunkInv_fold (T data : List Nat) (cs : Nat) (hcs : 0 < cs)
    (L : List Nat) :
    ∀ (P : Nat → Bool) (file : List Nat),
      (∀ c ∈ L, c * cs < data.length) → ChunkInv T data cs P file →
      ChunkInv T data cs (fun x => decide (x ∈ L) || P x)
        (L.foldl (fun f c => writeAt f (T.length + c * cs) (chunkSlice data cs c)) file) := by
  induction L with
  | nil =>
      intro P file _ h
      simpa using chunkInv_congr T data cs P _ file (fun x => by simp) h
  | cons c L ih =>
      intro P file hmem h
      have h1 := chunkInv_write T data cs P file c hcs (hmem c (by simp)) h
      have h2 := ih (fun x => decide (x = c) || P x) _
        (fun d hd => hmem d (by simp [hd])) h1
      simp only [List.foldl_cons]
      apply chunkInv_congr T data cs _ _ _ _ h2
      intro x
      simp [List.mem_cons, Bool.or_assoc, Bool.or_comm, Bool.or_left_comm]

/-- C9: for a fixed archive (fixed file table and data buffer),
`compress_parallel` writes exactly the bytes `compress` writes, for every
requested thread count, hardware parallelism, and every order in which the
disjoint chunk writes can reach the file (any permutation of the chunk
indices); hence parallel compression followed by sequential decompression
agrees with the fully sequential pipeline. -/
theorem C9_compress_parallel_eq_compress (sse42 : Bool) (hw : Nat) (a : Archive)
    (num_threads : Nat) (order : List Nat)
    (hperm : order.Perm (List.range
      (numChunks (resolveThreads hw num_threads a.files.length) a.data.length))) :
    a.compress_parallel sse42 hw num_threads order = a.compress sse42 := by
  unfold Archive.compress_parallel
  by_cases hnt : resolveThreads hw num_threads a.files.length ≤ 1
  · rw [if_pos hnt]
  · rw [if_neg hnt]
    set nt := resolveThreads hw num_threads a.files.length with hntdef
    set T := writeTable sse42 a.header a.files a.data with hT
    by_cases hds : a.data.length > 0
    · rw [if_pos hds]
      set cs := chunkSizeFor nt a.data.length with hcs
      have hcspos : 0 < cs := chunkSizeFor_pos nt a.data.length
      have hbase : writeAt T (T.length + a.data.length - 1) [0] =
          T ++ List.replicate a.data.length 0 := by
        have h1 : T.length + a.data.length - 1 = T.length + (a.data.length - 1) := by
          omega
        rw [h1, writeAt_extend T _ [0] (by omega), Nat.add_sub_cancel_left,
          List.append_assoc, replicate_zero_concat]
        have h2 : a.data.length - 1 + 1 = a.data.length := by omega
        rw [h2]
      rw [hbase]
      have hmem : ∀ c ∈ order, c * cs < a.data.length := by
        intro c hc
        have hc2 : c ∈ List.range (numChunks nt a.data.length) := hperm.mem_iff.mp hc
        have hc3 : c < numChunks nt a.data.length := List.mem_range.mp hc2
        exact chunk_start_lt cs a.data.length c hcspos hc3
      have hInv := chunkInv_fold T a.data cs hcspos order (fun _ => false)
        (T ++ List.replicate a.data.length 0) hmem (chunkInv_base T a.data cs)
      obtain ⟨hlen, hpre, hdata⟩ := hInv
      have hcomp : a.compress sse42 = T ++ a.data := rfl
      rw [hcomp]
      apply List.ext_getElem?
      intro i
      by_cases h1 : i < T.length
      · rw [hpre i h1, List.getElem?_append_left h1]
      · by_cases h2 : i < T.length + a.data.length
        · have hj : i = T.length + (i - T.length) := by omega
          rw [hj, hdata (i - T.length) (by omega),
            List.getElem?_append_right (by omega)]
          have hcov : (i - T.length) / cs ∈ order := by
            apply hperm.mem_iff.mpr
            apply List.mem_range.mpr
            exact div_lt_numChunks cs a.data.length _ hcspos (by omega)
          simp [hcov]
        · rw [List.getElem?_eq_none (by omega),
            List.getElem?_eq_none (by simp; omega)]
    · rw [if_neg hds]
      have hdata : a.data = [] := List.length_eq_zero.mp (by omega)
      have hcomp : a.compress sse42 = T ++ a.data := rfl
      rw [hcomp, hdata, List.append_nil]
      simp only [List.length_nil, Nat.add_zero]
      have hTsplit : T = (a.files.foldl entryWrite
          (headerBytes { a.header with crc32 := crc32_simd sse42 [] }
            ++ leBytes 8 a.files.length)) ++ List.replicate 8 0 := by
        rw [hT, hdata]
        rfl
      set W := a.files.foldl entryWrite
        (headerBytes { a.header with crc32 := crc32_simd sse42 [] }
          ++ leBytes 8 a.files.length) with hW
      rw [hTsplit]
      have hlenW : (W ++ List.replicate 8 (0 : Nat)).length = W.length + 8 := by
        simp
      rw [hlenW]
      have hinb : (W.length + 8 - 1) + ([0] : List Nat).length ≤
          (W ++ List.replicate 8 (0 : Nat)).length := by
        simp
      apply List.ext_getElem?
      intro i
      rw [writeAt_inbounds_getElem? _ _ _ hinb i]
      by_cases h1 : i < W.length + 8 - 1
      · rw [if_pos h1]
      · by_cases h2 : i < W.length + 8 - 1 + ([0] : List Nat).length
        · rw [if_neg h1, if_pos h2]
          have hi : i = W.length + 7 := by
            simp at h2
            omega
          rw [hi, List.getElem?_append_right (by omega)]
          have h7 : W.length + 7 - W.length = 7 := by omega
          have h0 : W.length + 7 - (W.length + 8 - 1) = 0 := by omega
          rw [h7, h0]
          simp
        · rw [if_neg h1, if_neg h2]

/-- Witness for C9: a two-file archive with 3 data bytes, 2 requested
threads (parallel path taken), a single chunk, written in the only
possible order. -/
theorem C9_witness :
    ([0] : List Nat).Perm (List.range
      (numChunks (resolveThreads 8 2 c9Archive.files.length) c9Archive.data.length)) ∧
      c9Archive.compress_parallel false 8 2 [0] = c9Archive.compress false :=
  ⟨by decide, C9_compress_parallel_eq_compress false 8 c9Archive 2 [0] (by decide)⟩

/-! ## remove_file erases exactly one row (C8) -/

theorem getD_eq_getElem_of_lt (l : List BEntry) (i : Nat) (h : i < l.length) :
    l.getD i defaultBEntry = l[i] := by
  rw [List.getD_eq_getElem?_getD, List.getElem?_eq_getElem h]
  rfl

/-- C8: `remove_file` with `p` present erases exactly the first matching
table row, leaving the data buffer and every other entry (offsets
included) unchanged; with `p` absent it leaves the whole archive state
unchanged and reports a not-found signal. -/
theorem C8_remove_file_frame (A : BArchive) (p : List String) :
    ((∀ e ∈ A.files, e.path ≠ p) → remove_file A p = (A, false)) ∧
      (∀ i, i < A.files.length → (A.files.getD i defaultBEntry).path = p →
        (∀ j, j < i → (A.files.getD j defaultBEntry).path ≠ p) →
        remove_file A p =
          ({ files := A.files.take i ++ A.files.drop (i + 1), data := A.data }, true)) := by
  constructor
  · intro h
    have hnone : List.findIdx? (fun e => decide (e.path = p)) A.files = none :=
      List.findIdx?_eq_none_iff.mpr (fun x hx => by simp [h x hx])
    simp only [remove_file, hnone]
  · intro i hi hpath hfirst
    have hfind : List.findIdx? (fun e => decide (e.path = p)) A.files = some i := by
      rw [List.findIdx?_eq_some_iff_getElem]
      refine ⟨hi, ?_, ?_⟩
      · rw [getD_eq_getElem_of_lt A.files i hi] at hpath
        simp [hpath]
      · intro j hj
        have hj2 : j < A.files.length := Nat.lt_trans hj hi
        have hne := hfirst j hj
        rw [getD_eq_getElem_of_lt A.files j hj2] at hne
        simp [hne]
    simp only [remove_file, hfind, List.eraseIdx_eq_take_drop_succ]

/-- Witness for C8: a two-entry table, removing the present path erases
only its row; also exercises the absent branch. -/
theorem C8_witness :
    (1 < c8Table.files.length ∧ (c8Table.files.getD 1 defaultBEntry).path = ["a", "b"] ∧
      (∀ j, j < 1 → (c8Table.files.getD j defaultBEntry).path ≠ ["a", "b"]) ∧
      remove_file c8Table ["a", "b"] =
        ({ files := c8Table.files.take 1 ++ c8Table.files.drop 2,
           data := c8Table.data }, true)) ∧
    ((∀ e ∈ c8Table.files, e.path ≠ ["z"]) ∧ remove_file c8Table ["z"] = (c8Table, false)) :=
  ⟨⟨by decide, by decide, by decide,
      (C8_remove_file_frame c8Table ["a", "b"]).2 1 (by decide) (by decide) (by decide)⟩,
    ⟨by decide, (C8_remove_file_frame c8Table ["z"]).1 (by decide)⟩⟩

/-! ## Build-model infrastructure lemmas -/

theorem dirPresent_find (files : List BEntry) (q : List String) :
    (List.find? (fun e => decide (e.path = q ∧ e.type = FileType.Directory)) files).isSome ↔
      DirPresent files q := by
  rw [List.find?_isSome]
  unfold DirPresent
  constructor
  · rintro ⟨x, hx, hpx⟩
    simp at hpx
    exact ⟨x, hx, hpx⟩
  · rintro ⟨x, hx, h1, h2⟩
    exact ⟨x, hx, by simp [h1, h2]⟩

theorem filesExtend_refl (A : BArchive) : FilesExtend A A := ⟨[], by simp⟩

theorem filesExtend_trans (A B C : BArchive) (h1 : FilesExtend A B)
    (h2 : FilesExtend B C) : FilesExtend A C := by
  obtain ⟨t1, ht1⟩ := h1
  obtain ⟨t2, ht2⟩ := h2
  exact ⟨t1 ++ t2, by simp [ht2, ht1]⟩

theorem dirPresent_mono (A B : BArchive) (q : List String) (hext : FilesExtend A B)
    (h : DirPresent A.files q) : DirPresent B.files q := by
  obtain ⟨t, ht⟩ := hext
  obtain ⟨e, he, h1⟩ := h
  exact ⟨e, by simp [ht, he], h1⟩

theorem fsIsDir_exists (fs : FS) (q : List String) (h : fsIsDir fs q = true) :
    fsExists fs q = true := by
  unfold fsIsDir at h
  unfold fsExists
  cases hl : lookupFS fs q with
  | none => rw [hl] at h; simp at h
  | some nd => simp

theorem lookupFS_mem (fs : FS) (p : List String) (nd : FNode)
    (h : lookupFS fs p = some nd) : (p, nd) ∈ fs := by
  unfold lookupFS at h
  cases hf : List.find? (fun e => decide (e.1 = p)) fs with
  | none => rw [hf] at h; simp at h
  | some e =>
      rw [hf] at h
      simp at h
      have hmem := List.mem_of_find?_eq_some hf
      have hpe := List.find?_some hf
      simp at hpe
      have he : e = (p, nd) := by
        cases e
        simp at hpe h ⊢
        exact ⟨hpe, h⟩
      rw [← he]
      exact hmem

theorem parentPrefixes_mem (p q : List String) :
    q ∈ parentPrefixes p ↔ ∃ k, k < p.length - 1 ∧ p.take (k + 1) = q := by
  simp [parentPrefixes]

theorem parentPrefixes_ne (p q : List String) (h : q ∈ parentPrefixes p) :
    q ≠ p ∧ q.length < p.length := by
  rw [parentPrefixes_mem] at h
  obtain ⟨k, hk, hq⟩ := h
  have hlen : q.length = k + 1 := by
    rw [← hq]
    simp
    omega
  constructor
  · intro hqp
    rw [hqp] at hlen
    omega
  · omega

theorem getD_append_left_entries (l t : List BEntry) (i : Nat) (h : i < l.length) :
    (l ++ t).getD i defaultBEntry = l.getD i defaultBEntry := by
  rw [List.getD_eq_getElem?_getD, List.getD_eq_getElem?_getD,
    List.getElem?_append_left h]

theorem getD_append_at_entries (l : List BEntry) (e : BEntry) (t : List BEntry) :
    (l ++ e :: t).getD l.length defaultBEntry = e := by
  rw [List.getD_eq_getElem?_getD, List.getElem?_append_right (Nat.le_refl _)]
  simp

/-! ## add_parent_directories lemmas -/

theorem apdStep_cases (fs : FS) (A : BArchive) (q : List String) :
    (DirPresent A.files q ∧ apdStep fs A q = A) ∨
      (¬ DirPresent A.files q ∧ (fsExists fs q && fsIsDir fs q) = true ∧
        apdStep fs A q =
          { A with files := A.files ++ [mkDirEntry (fsPerms fs q) q A.data.length] }) ∨
      (¬ DirPresent A.files q ∧ (fsExists fs q && fsIsDir fs q) = false ∧
        apdStep fs A q = A) := by
  unfold apdStep
  by_cases h1 : (List.find? (fun e => decide (e.path = q ∧ e.type = FileType.Directory)) A.files).isSome = true
  · left
    exact ⟨(dirPresent_find A.files q).mp h1, by rw [if_pos h1]⟩
  · have hnp : ¬ DirPresent A.files q := fun hp => h1 ((dirPresent_find A.files q).mpr hp)
    by_cases h2 : (fsExists fs q && fsIsDir fs q) = true
    · right; left
      exact ⟨hnp, h2, by rw [if_neg h1, if_pos h2]⟩
    · right; right
      exact ⟨hnp, by simpa using h2, by rw [if_neg h1, if_neg h2]⟩

theorem apd_fold_spec (fs : FS) (L : List (List String)) :
    ∀ A : BArchive, ∃ t, (L.foldl (apdStep fs) A).files = A.files ++ t ∧
      (L.foldl (apdStep fs) A).data = A.data ∧
      ∀ e ∈ t, e.path ∈ L ∧ e.type = FileType.Directory := by
  induction L with
  | nil => exact fun A => ⟨[], by simp, by simp, by simp⟩
  | cons q L ih =>
      intro A
      rw [List.foldl_cons]
      rcases apdStep_cases fs A q with ⟨_, h⟩ | ⟨_, _, h⟩ | ⟨_, _, h⟩ <;> rw [h]
      · obtain ⟨t, ht1, ht2, ht3⟩ := ih A
        exact ⟨t, ht1, ht2, fun e he => ⟨List.mem_cons_of_mem _ (ht3 e he).1, (ht3 e he).2⟩⟩
      · obtain ⟨t, ht1, ht2, ht3⟩ := ih
          { A with files := A.files ++ [mkDirEntry (fsPerms fs q) q A.data.length] }
        refine ⟨mkDirEntry (fsPerms fs q) q A.data.length :: t, ?_, ht2, ?_⟩
        · rw [ht1]
          simp
        · intro e he
          rcases List.mem_cons.mp he with rfl | he2
          · exact ⟨List.mem_cons_self _ _, rfl⟩
          · exact ⟨List.mem_cons_of_mem _ (ht3 e he2).1, (ht3 e he2).2⟩
      · obtain ⟨t, ht1, ht2, ht3⟩ := ih A
        exact ⟨t, ht1, ht2, fun e he => ⟨List.mem_cons_of_mem _ (ht3 e he).1, (ht3 e he).2⟩⟩

theorem apd_spec (fs : FS) (A : BArchive) (p : List String) :
    ∃ t, (add_parent_directories fs A p).files = A.files ++ t ∧
      (add_parent_directories fs A p).data = A.data ∧
      ∀ e ∈ t, e.path ∈ parentPrefixes p ∧ e.type = FileType.Directory :=
  apd_fold_spec fs (parentPrefixes p) A

theorem apd_extends (fs : FS) (A : BArchive) (p : List String) :
    FilesExtend A (add_parent_directories fs A p) := by
  obtain ⟨t, ht, _, _⟩ := apd_spec fs A p
  exact ⟨t, ht⟩

theorem apd_fold_post (fs : FS) (L : List (List String)) :
    ∀ A q, q ∈ L → fsIsDir fs q = true →
      DirPresent ((L.foldl (apdStep fs) A).files) q := by
  induction L with
  | nil => simp
  | cons r L ih =>
      intro A q hq hdir
      rw [List.foldl_cons]
      rcases List.mem_cons.mp hq with rfl | hq2
      · have hstep : DirPresent (apdStep fs A q).files q := by
          rcases apdStep_cases fs A q with ⟨hp, h⟩ | ⟨_, _, h⟩ | ⟨_, hc, _⟩
          · rw [h]; exact hp
          · rw [h]
            exact ⟨mkDirEntry (fsPerms fs q) q A.data.length, by simp, rfl, rfl⟩
          · rw [fsIsDir_exists fs q hdir, hdir] at hc
            simp at hc
        have hext : FilesExtend (apdStep fs A q) (L.foldl (apdStep fs) (apdStep fs A q)) := by
          obtain ⟨t, ht, _, _⟩ := apd_fold_spec fs L (apdStep fs A q)
          exact ⟨t, ht⟩
        exact dirPresent_mono _ _ q hext hstep
      · exact ih (apdStep fs A r) q hq2 hdir

theorem apd_fold_noop (fs : FS) (L : List (List String)) :
    ∀ A, (∀ q ∈ L, fsIsDir fs q = true → DirPresent A.files q) →
      L.foldl (apdStep fs) A = A := by
  induction L with
  | nil => intro A _; rfl
  | cons r L ih =>
      intro A h
      rw [List.foldl_cons]
      have hstep : apdStep fs A r = A := by
        rcases apdStep_cases fs A r with ⟨_, hs⟩ | ⟨hnp, hc, _⟩ | ⟨_, _, hs⟩
        · exact hs
        · have hdir : fsIsDir fs r = true := by
            rcases Bool.and_eq_true_iff.mp hc with ⟨_, h2⟩
            exact h2
          exact absurd (h r (List.mem_cons_self _ _) hdir) hnp
        · exact hs
      rw [hstep]
      exact ih A (fun q hq => h q (List.mem_cons_of_mem _ hq))

theorem apd_fold_countP_present (fs : FS) (q : List String) (L : List (List String)) :
    ∀ A, DirPresent A.files q →
      List.countP (fun e => decide (e.path = q)) ((L.foldl (apdStep fs) A).files) =
        List.countP (fun e => decide (e.path = q)) A.files := by
  induction L with
  | nil => intro A _; rfl
  | cons r L ih =>
      intro A hp
      rw [List.foldl_cons]
      rcases apdStep_cases fs A r with ⟨_, h⟩ | ⟨hnp, _, h⟩ | ⟨_, _, h⟩
      · rw [h]; exact ih A hp
      · have hrq : r ≠ q := fun hrq => hnp (hrq ▸ hp)
        rw [h]
        have hp2 : DirPresent ({ A with files := A.files ++ [mkDirEntry (fsPerms fs r) r A.data.length] } : BArchive).files q :=
          dirPresent_mono A _ q ⟨_, rfl⟩ hp
        rw [ih _ hp2]
        simp [mkDirEntry, hrq]
      · rw [h]; exact ih A hp

theorem apd_countP_ne (fs : FS) (A : BArchive) (p q : List String)
    (h : ∀ r ∈ parentPrefixes p, r ≠ q) :
    List.countP (fun e => decide (e.path = q)) ((add_parent_directories fs A p).files) =
      List.countP (fun e => decide (e.path = q)) A.files := by
  obtain ⟨t, ht, _, hmem⟩ := apd_spec fs A p
  rw [ht, List.countP_append]
  have hzero : List.countP (fun e => decide (e.path = q)) t = 0 :=
    List.countP_eq_zero.mpr (fun e he => by simp [h e.path (hmem e he).1])
  omega

/-! ## add_file / add_directory recursion lemmas -/

theorem child_fold_extends (fs : FS) (fuel : Nat)
    (hext : ∀ A p, FilesExtend A (addFileFuel fuel fs A p).1 ∧
      FilesExtend A (addDirFuel fuel fs A p).1)
    (L : List (List String × FNode)) :
    ∀ A : BArchive,
      FilesExtend A (L.foldl (fun acc child =>
        if child.2.isDir then (addDirFuel fuel fs acc child.1).1
        else (addFileFuel fuel fs acc child.1).1) A) := by
  induction L with
  | nil => intro A; exact filesExtend_refl A
  | cons c L ih =>
      intro A
      rw [List.foldl_cons]
      refine filesExtend_trans A _ _ ?_ (ih _)
      by_cases hc : c.2.isDir = true
      · simp only [hc, if_true]
        exact (hext A c.1).2
      · simp only [hc, if_false]
        exact (hext A c.1).1

theorem addFuel_extends (fuel : Nat) :
    ∀ fs A p, FilesExtend A (addFileFuel fuel fs A p).1 ∧
      FilesExtend A (addDirFuel fuel fs A p).1 := by
  induction fuel with
  | zero => exact fun fs A p => ⟨filesExtend_refl A, filesExtend_refl A⟩
  | succ fuel ih =>
      intro fs A p
      constructor
      · cases hl : lookupFS fs p with
        | none =>
            simp only [addFileFuel, hl]
            exact filesExtend_refl A
        | some nd =>
          cases nd with
          | dir pm =>
              simp only [addFileFuel, hl]
              exact (ih fs A p).2
          | regular pm content =>
              simp only [addFileFuel, hl]
              cases hf : List.findIdx?
                  (fun e => decide (e.path = p ∧ e.type ≠ FileType.Directory)) A.files with
              | some i =>
                  simp only [hf]
                  exact filesExtend_refl A
              | none =>
                  simp only [hf]
                  obtain ⟨t, ht, _, _⟩ := apd_spec fs A p
                  exact ⟨t ++ [mkDataEntry pm p FileType.Regular content
                    (add_parent_directories fs A p).data.length], by simp [ht]⟩
          | symlink pm target =>
              simp only [addFileFuel, hl]
              cases hf : List.findIdx?
                  (fun e => decide (e.path = p ∧ e.type ≠ FileType.Directory)) A.files with
              | some i =>
                  simp only [hf]
                  exact filesExtend_refl A
              | none =>
                  simp only [hf]
                  obtain ⟨t, ht, _, _⟩ := apd_spec fs A p
                  exact ⟨t ++ [mkDataEntry pm p FileType.Symlink target
                    (add_parent_directories fs A p).data.length], by simp [ht]⟩
      · cases hl : lookupFS fs p with
        | none =>
            simp only [addDirFuel, hl]
            exact filesExtend_refl A
        | some nd =>
          cases nd with
          | regular pm content =>
              simp only [addDirFuel, hl]
              exact filesExtend_refl A
          | symlink pm target =>
              simp only [addDirFuel, hl]
              exact filesExtend_refl A
          | dir pm =>
              simp only [addDirFuel, hl]
              cases hf : List.findIdx?
                  (fun e => decide (e.path = p ∧ e.type = FileType.Directory))
                  (add_parent_directories fs A p).files with
              | some i =>
                  simp only [hf]
                  exact apd_extends fs A p
              | none =>
                  simp only [hf]
                  refine filesExtend_trans A _ _ ?_
                    (child_fold_extends fs fuel (fun A p => ih fs A p) _ _)
                  obtain ⟨t, ht, _, _⟩ := apd_spec fs A p
                  exact ⟨t ++ [mkDirEntry pm p (add_parent_directories fs A p).data.length],
                    by simp [ht]⟩

theorem pre_of_child_pre (r q : List String) (x : String)
    (h : isPre (r ++ [x]) q) : isPre r q := by
  unfold isPre at *
  have hlen : r.length + 1 ≤ q.length := by
    have := congrArg List.length h
    simp at this
    omega
  have h2 : q.take r.length = (q.take (r ++ [x]).length).take r.length := by
    rw [List.take_take]
    congr 1
    simp
  rw [h2, h]
  simp

theorem child_ne_and_not_pre (r q : List String) (x : String)
    (hr : ¬ isPre r q) : r ++ [x] ≠ q ∧ ¬ isPre (r ++ [x]) q := by
  constructor
  · intro hc
    apply hr
    rw [← hc]
    unfold isPre
    rw [List.take_append_of_le_length (Nat.le_refl _), List.take_length]
  · exact fun h => hr (pre_of_child_pre r q x h)

theorem childrenFS_mem (fs : FS) (d : List String) (c : List String × FNode)
    (h : c ∈ childrenFS fs d) :
    c ∈ fs ∧ c.1.length = d.length + 1 ∧ c.1.take d.length = d := by
  unfold childrenFS at h
  have hm := List.mem_filter.mp h
  refine ⟨hm.1, ?_, ?_⟩
  · have := hm.2
    simp at this
    exact this.1
  · have := hm.2
    simp at this
    exact this.2

theorem eq_append_single_of_take (l d : List String)
    (h1 : l.length = d.length + 1) (h2 : l.take d.length = d) :
    ∃ x, l = d ++ [x] := by
  have hd : (l.drop d.length).length = 1 := by
    simp
    omega
  obtain ⟨x, hx⟩ := List.length_eq_one.mp hd
  refine ⟨x, ?_⟩
  conv_lhs => rw [← List.take_append_drop d.length l]
  rw [h2, hx]

theorem child_fold_countP (fs : FS) (fuel : Nat) (q : List String)
    (hstep : ∀ A r, DirPresent A.files q → r ≠ q → ¬ isPre r q →
      (List.countP (fun e => decide (e.path = q)) (addFileFuel fuel fs A r).1.files =
        List.countP (fun e => decide (e.path = q)) A.files) ∧
      (List.countP (fun e => decide (e.path = q)) (addDirFuel fuel fs A r).1.files =
        List.countP (fun e => decide (e.path = q)) A.files))
    (L : List (List String × FNode)) :
    ∀ A : BArchive, DirPresent A.files q → (∀ c ∈ L, c.1 ≠ q ∧ ¬ isPre c.1 q) →
      List.countP (fun e => decide (e.path = q)) ((L.foldl (fun acc child =>
        if child.2.isDir then (addDirFuel fuel fs acc child.1).1
        else (addFileFuel fuel fs acc child.1).1) A).files) =
      List.countP (fun e => decide (e.path = q)) A.files := by
  induction L with
  | nil => intro A _ _; rfl
  | cons c L ih =>
      intro A hdp hc
      rw [List.foldl_cons]
      have hcc := hc c (List.mem_cons_self _ _)
      by_cases hdir : c.2.isDir = true
      · simp only [hdir, if_true]
        have h1 := (hstep A c.1 hdp hcc.1 hcc.2).2
        have hdp2 : DirPresent (addDirFuel fuel fs A c.1).1.files q :=
          dirPresent_mono A _ q (addFuel_extends fuel fs A c.1).2 hdp
        rw [ih _ hdp2 (fun d hd => hc d (List.mem_cons_of_mem _ hd)), h1]
      · simp only [hdir, if_false, Bool.false_eq_true]
        have h1 := (hstep A c.1 hdp hcc.1 hcc.2).1
        have hdp2 : DirPresent (addFileFuel fuel fs A c.1).1.files q :=
          dirPresent_mono A _ q (addFuel_extends fuel fs A c.1).1 hdp
        rw [ih _ hdp2 (fun d hd => hc d (List.mem_cons_of_mem _ hd)), h1]

theorem addFuel_countP (q : List String) (fuel : Nat) :
    ∀ fs A r, DirPresent A.files q → r ≠ q → ¬ isPre r q →
      (List.countP (fun e => decide (e.path = q)) (addFileFuel fuel fs A r).1.files =
        List.countP (fun e => decide (e.path = q)) A.files) ∧
      (List.countP (fun e => decide (e.path = q)) (addDirFuel fuel fs A r).1.files =
        List.countP (fun e => decide (e.path = q)) A.files) := by
  induction fuel with
  | zero => intro fs A r _ _ _; exact ⟨rfl, rfl⟩
  | succ fuel ih =>
      intro fs A r hdp hne hnp
      constructor
      · cases hl : lookupFS fs r with
        | none => simp only [addFileFuel, hl]
        | some nd =>
          cases nd with
          | dir pm =>
              simp only [addFileFuel, hl]
              exact (ih fs A r hdp hne hnp).2
          | regular pm content =>
              simp only [addFileFuel, hl]
              cases hf : List.findIdx?
                  (fun e => decide (e.path = r ∧ e.type ≠ FileType.Directory)) A.files with
              | some i => simp only [hf]
              | none =>
                  simp only [hf, List.countP_append]
                  have hc1 : List.countP (fun e => decide (e.path = q))
                      (add_parent_directories fs A r).files =
                      List.countP (fun e => decide (e.path = q)) A.files :=
                    apd_fold_countP_present fs q (parentPrefixes r) A hdp
                  rw [hc1]
                  simp [mkDataEntry, hne]
          | symlink pm target =>
              simp only [addFileFuel, hl]
              cases hf : List.findIdx?
                  (fun e => decide (e.path = r ∧ e.type ≠ FileType.Directory)) A.files with
              | some i => simp only [hf]
              | none =>
                  simp only [hf, List.countP_append]
                  have hc1 : List.countP (fun e => decide (e.path = q))
                      (add_parent_directories fs A r).files =
                      List.countP (fun e => decide (e.path = q)) A.files :=
                    apd_fold_countP_present fs q (parentPrefixes r) A hdp
                  rw [hc1]
                  simp [mkDataEntry, hne]
      · cases hl : lookupFS fs r with
        | none => simp only [addDirFuel, hl]
        | some nd =>
          cases nd with
          | regular pm content => simp only [addDirFuel, hl]
          | symlink pm target => simp only [addDirFuel, hl]
          | dir pm =>
              simp only [addDirFuel, hl]
              have hcount1 : List.countP (fun e => decide (e.path = q))
                  (add_parent_directories fs A r).files =
                  List.countP (fun e => decide (e.path = q)) A.files :=
                apd_fold_countP_present fs q (parentPrefixes r) A hdp
              have hdp1 : DirPresent (add_parent_directories fs A r).files q :=
                dirPresent_mono A _ q (apd_extends fs A r) hdp
              cases hf : List.findIdx?
                  (fun e => decide (e.path = r ∧ e.type = FileType.Directory))
                  (add_parent_directories fs A r).files with
              | some i =>
                  simp only [hf]
                  exact hcount1
              | none =>
                  simp only [hf]
                  have hdp2 : DirPresent ({ add_parent_directories fs A r with
                      files := (add_parent_directories fs A r).files ++
                        [mkDirEntry pm r (add_parent_directories fs A r).data.length] } : BArchive).files q :=
                    dirPresent_mono _ _ q ⟨_, rfl⟩ hdp1
                  rw [child_fold_countP fs fuel q (fun A r => ih fs A r) _ _ hdp2 ?_]
                  · simp only [List.countP_append]
                    rw [hcount1]
                    simp [mkDirEntry, hne]
                  · intro c hcmem
                    obtain ⟨_, hlen, htake⟩ := childrenFS_mem fs r c hcmem
                    obtain ⟨x, hx⟩ := eq_append_single_of_take c.1 r hlen htake
                    rw [hx]
                    exact child_ne_and_not_pre r q x hnp

/-! ## The ancestor invariant (C7) -/

theorem anc_append_entry (files : List BEntry) (e : BEntry)
    (hanc : AncestorsBefore files)
    (hpre : ∀ k, k < e.path.length → 0 < k → DirPresent files (e.path.take k)) :
    AncestorsBefore (files ++ [e]) := by
  intro i hi k hk h0
  by_cases hilt : i < files.length
  · rw [getD_append_left_entries _ _ _ hilt] at hk ⊢
    obtain ⟨j, hj, hjp, hjt⟩ := hanc i hilt k hk h0
    refine ⟨j, hj, ?_, ?_⟩ <;>
      rw [getD_append_left_entries _ _ _ (Nat.lt_trans hj hilt)] <;>
      assumption
  · have hieq : i = files.length := by
      simp at hi
      omega
    have hgd : (files ++ [e]).getD i defaultBEntry = e := by
      rw [hieq]
      exact getD_append_at_entries files e []
    rw [hgd] at hk ⊢
    obtain ⟨x, hx, hxp, hxt⟩ := hpre k hk h0
    obtain ⟨n1, hn1⟩ := List.mem_iff_getElem?.mp hx
    have hn1lt : n1 < files.length := by
      by_contra hcon
      rw [List.getElem?_eq_none (by omega)] at hn1
      simp at hn1
    refine ⟨n1, by omega, ?_, ?_⟩
    · rw [getD_append_left_entries _ _ _ hn1lt, List.getD_eq_getElem?_getD, hn1]
      exact hxp
    · rw [getD_append_left_entries _ _ _ hn1lt, List.getD_eq_getElem?_getD, hn1]
      exact hxt

theorem apd_range_anc (fs : FS) (p : List String)
    (hdirs : ∀ k, k < p.length → 0 < k → fsIsDir fs (p.take k) = true) :
    ∀ n, n ≤ p.length - 1 → ∀ A : BArchive, AncestorsBefore A.files →
      AncestorsBefore ((((List.range n).map (fun k => p.take (k + 1))).foldl
        (apdStep fs) A).files) ∧
      (∀ k, 0 < k → k ≤ n → DirPresent ((((List.range n).map (fun k => p.take (k + 1))).foldl
        (apdStep fs) A).files) (p.take k)) := by
  intro n
  induction n with
  | zero =>
      intro _ A hanc
      refine ⟨by simpa using hanc, ?_⟩
      intro k h1 h2
      omega
  | succ n ih =>
      intro hn A hanc
      rw [List.range_succ, List.map_append, List.foldl_append]
      obtain ⟨ihA, ihP⟩ := ih (by omega) A hanc
      simp only [List.map_cons, List.map_nil, List.foldl_cons, List.foldl_nil]
      rcases apdStep_cases fs (((List.range n).map (fun k => p.take (k + 1))).foldl
          (apdStep fs) A) (p.take (n + 1)) with ⟨hp, h⟩ | ⟨hnp, hc, h⟩ | ⟨hnp, hc, h⟩
      · rw [h]
        refine ⟨ihA, ?_⟩
        intro k h1 h2
        rcases Nat.lt_or_ge k (n + 1) with hlt | hge
        · exact ihP k h1 (by omega)
        · have : k = n + 1 := by omega
          rw [this]
          exact hp
      · rw [h]
        have hplen : (p.take (n + 1)).length = n + 1 := by
          simp
          omega
        constructor
        · apply anc_append_entry _ _ ihA
          intro k hk h0
          rw [mkDirEntry] at hk
          simp only at hk
          rw [hplen] at hk
          have htt : ((mkDirEntry (fsPerms fs (p.take (n + 1))) (p.take (n + 1))
              ((((List.range n).map (fun k => p.take (k + 1))).foldl (apdStep fs) A).data.length)).path).take k = p.take k := by
            simp only [mkDirEntry]
            rw [List.take_take]
            congr 1
            omega
          rw [htt]
          exact ihP k h0 (by omega)
        · intro k h1 h2
          rcases Nat.lt_or_ge k (n + 1) with hlt | hge
          · exact dirPresent_mono _ _ _ ⟨_, rfl⟩ (ihP k h1 (by omega))
          · have hkeq : k = n + 1 := by omega
            rw [hkeq]
            exact ⟨_, List.mem_append_right _ (List.mem_singleton.mpr rfl), rfl, rfl⟩
      · exfalso
        have hd : fsIsDir fs (p.take (n + 1)) = true := hdirs (n + 1) (by omega) (by omega)
        rw [fsIsDir_exists fs _ hd, hd] at hc
        simp at hc

theorem child_fold_anc (fs : FS) (fuel : Nat)
    (hstep : ∀ A p, AncestorsBefore A.files →
      AncestorsBefore (addFileFuel fuel fs A p).1.files ∧
      AncestorsBefore (addDirFuel fuel fs A p).1.files)
    (L : List (List String × FNode)) :
    ∀ A : BArchive, AncestorsBefore A.files →
      AncestorsBefore ((L.foldl (fun acc child =>
        if child.2.isDir then (addDirFuel fuel fs acc child.1).1
        else (addFileFuel fuel fs acc child.1).1) A).files) := by
  induction L with
  | nil => exact fun A h => h
  | cons c L ih =>
      intro A h
      rw [List.foldl_cons]
      by_cases hdir : c.2.isDir = true
      · simp only [hdir, if_true]
        exact ih _ (hstep A c.1 h).2
      · simp only [hdir, if_false, Bool.false_eq_true]
        exact ih _ (hstep A c.1 h).1

theorem addFuel_anc (fuel : Nat) :
    ∀ fs A p, WFfs fs → AncestorsBefore A.files →
      AncestorsBefore (addFileFuel fuel fs A p).1.files ∧
      AncestorsBefore (addDirFuel fuel fs A p).1.files := by
  induction fuel with
  | zero => exact fun fs A p _ h => ⟨h, h⟩
  | succ fuel ih =>
      intro fs A p hWF hanc
      constructor
      · cases hl : lookupFS fs p with
        | none =>
            simp only [addFileFuel, hl]
            exact hanc
        | some nd =>
          cases nd with
          | dir pm =>
              simp only [addFileFuel, hl]
              exact (ih fs A p hWF hanc).2
          | regular pm content =>
              simp only [addFileFuel, hl]
              cases hf : List.findIdx?
                  (fun e => decide (e.path = p ∧ e.type ≠ FileType.Directory)) A.files with
              | some i =>
                  simp only [hf]
                  exact hanc
              | none =>
                  simp only [hf]
                  have hdirs : ∀ k, k < p.length → 0 < k → fsIsDir fs (p.take k) = true :=
                    hWF (p, FNode.regular pm content) (lookupFS_mem fs p _ hl)
                  obtain ⟨hA1, hP1⟩ := apd_range_anc fs p hdirs (p.length - 1)
                    (Nat.le_refl _) A hanc
                  apply anc_append_entry _ _ hA1
                  intro k hk h0
                  simp only [mkDataEntry] at hk ⊢
                  exact hP1 k h0 (by omega)
          | symlink pm target =>
              simp only [addFileFuel, hl]
              cases hf : List.findIdx?
                  (fun e => decide (e.path = p ∧ e.type ≠ FileType.Directory)) A.files with
              | some i =>
                  simp only [hf]
                  exact hanc
              | none =>
                  simp only [hf]
                  have hdirs : ∀ k, k < p.length → 0 < k → fsIsDir fs (p.take k) = true :=
                    hWF (p, FNode.symlink pm target) (lookupFS_mem fs p _ hl)
                  obtain ⟨hA1, hP1⟩ := apd_range_anc fs p hdirs (p.length - 1)
                    (Nat.le_refl _) A hanc
                  apply anc_append_entry _ _ hA1
                  intro k hk h0
                  simp only [mkDataEntry] at hk ⊢
                  exact hP1 k h0 (by omega)
      · cases hl : lookupFS fs p with
        | none =>
            simp only [addDirFuel, hl]
            exact hanc
        | some nd =>
          cases nd with
          | regular pm content =>
              simp only [addDirFuel, hl]
              exact hanc
          | symlink pm target =>
              simp only [addDirFuel, hl]
              exact hanc
          | dir pm =>
              simp only [addDirFuel, hl]
              have hdirs : ∀ k, k < p.length → 0 < k → fsIsDir fs (p.take k) = true :=
                hWF (p, FNode.dir pm) (lookupFS_mem fs p _ hl)
              obtain ⟨hA1, hP1⟩ := apd_range_anc fs p hdirs (p.length - 1)
                (Nat.le_refl _) A hanc
              cases hf : List.findIdx?
                  (fun e => decide (e.path = p ∧ e.type = FileType.Directory))
                  (add_parent_directories fs A p).files with
              | some i =>
                  simp only [hf]
                  exact hA1
              | none =>
                  simp only [hf]
                  apply child_fold_anc fs fuel (fun A p h => ih fs A p hWF h)
                  apply anc_append_entry _ _ hA1
                  intro k hk h0
                  simp only [mkDirEntry] at hk ⊢
                  exact hP1 k h0 (by omega)

/-- C7: for every archive built from a fresh one by `add_file` /
`add_directory` calls against a well-formed filesystem, every entry's
proper path prefixes (for `a/b/c`: `a` and `a/b`) appear as Directory
entries at earlier table positions. -/
theorem C7_ancestor_directories_precede (fs : FS) (ops : List BuildOp) (hWF : WFfs fs) :
    AncestorsBefore (buildArchive fs ops).files := by
  have hstep : ∀ (ops2 : List BuildOp) (A : BArchive), AncestorsBefore A.files →
      AncestorsBefore (ops2.foldl (applyOp fs) A).files := by
    intro ops2
    induction ops2 with
    | nil => exact fun A h => h
    | cons op ops ih =>
        intro A h
        rw [List.foldl_cons]
        apply ih
        cases op with
        | file p =>
            simp only [applyOp, add_file]
            exact (addFuel_anc (bigFuel fs) fs A p hWF h).1
        | dir p =>
            simp only [applyOp, add_directory]
            exact (addFuel_anc (bigFuel fs) fs A p hWF h).2
  apply hstep ops emptyBArchive
  intro i hi
  simp [emptyBArchive] at hi

/-- Witness for C7 at a concrete filesystem and build sequence. -/
theorem C7_witness :
    WFfs c7fs ∧ AncestorsBefore (buildArchive c7fs c7ops).files :=
  ⟨by decide, C7_ancestor_directories_precede c7fs c7ops (by decide)⟩

/-! ## Idempotence of add_file (C6) -/

theorem apd_post (fs : FS) (A : BArchive) (p q : List String)
    (hq : q ∈ parentPrefixes p) (hdir : fsIsDir fs q = true) :
    DirPresent (add_parent_directories fs A p).files q :=
  apd_fold_post fs (parentPrefixes p) A q hq hdir

theorem apd_noop (fs : FS) (A : BArchive) (p : List String)
    (h : ∀ q ∈ parentPrefixes p, fsIsDir fs q = true → DirPresent A.files q) :
    add_parent_directories fs A p = A :=
  apd_fold_noop fs (parentPrefixes p) A h

theorem not_isPre_of_longer (r q : List String) (h : q.length < r.length) :
    ¬ isPre r q := by
  unfold isPre
  intro hc
  have hlen := congrArg List.length hc
  simp at hlen
  omega

theorem apd_fresh (fs : FS) (A : BArchive) (p : List String)
    (hfresh : ∀ e ∈ A.files, e.path ≠ p) :
    ∀ e ∈ (add_parent_directories fs A p).files, e.path ≠ p := by
  obtain ⟨t, ht, _, hmem⟩ := apd_spec fs A p
  rw [ht]
  intro e he
  rcases List.mem_append.mp he with h1 | h2
  · exact hfresh e h1
  · exact (parentPrefixes_ne p e.path (hmem e h2).1).1

theorem countP_zero_of_fresh (l : List BEntry) (p : List String)
    (h : ∀ e ∈ l, e.path ≠ p) :
    List.countP (fun e => decide (e.path = p)) l = 0 :=
  List.countP_eq_zero.mpr (fun e he => by simp [h e he])

/-- C6: with `p` present on the filesystem and not yet in the table,
calling `add_file` twice leaves the table with exactly one entry for the
normalized `p` — the second call returns the existing entry (same index,
pointing at the row whose path is `p`) and leaves the whole archive state
(table and data buffer) unchanged. -/
theorem C6_add_file_idempotent (fs : FS) (A : BArchive) (p : List String)
    (hex : lookupFS fs p ≠ none) (hfresh : ∀ e ∈ A.files, e.path ≠ p) :
    add_file fs (add_file fs A p).1 p = add_file fs A p ∧
      (∃ i, (add_file fs A p).2 = some i ∧
        ((add_file fs A p).1.files.getD i defaultBEntry).path = p) ∧
      List.countP (fun e => decide (e.path = p)) (add_file fs A p).1.files = 1 := by
  obtain ⟨m, hm⟩ : ∃ m, bigFuel fs = m + 2 :=
    ⟨bigFuel fs - 2, by unfold bigFuel; omega⟩
  have hA1fresh := apd_fresh fs A p hfresh
  obtain ⟨t1, ht1, htd1, htm1⟩ := apd_spec fs A p
  have hcount1 : List.countP (fun e => decide (e.path = p))
      (add_parent_directories fs A p).files = 0 :=
    countP_zero_of_fresh _ p hA1fresh
  cases hl : lookupFS fs p with
  | none => exact absurd hl hex
  | some nd =>
    cases nd with
    | regular pm content =>
        have hfind1 : List.findIdx?
            (fun e => decide (e.path = p ∧ e.type ≠ FileType.Directory)) A.files = none :=
          List.findIdx?_eq_none_iff.mpr (fun e he => by simp [hfresh e he])
        have hres : add_file fs A p =
            ({ files := (add_parent_directories fs A p).files ++
                [mkDataEntry pm p FileType.Regular content (add_parent_directories fs A p).data.length]
               data := (add_parent_directories fs A p).data ++ content },
              some (add_parent_directories fs A p).files.length) := by
          simp only [add_file, hm, addFileFuel, hl, hfind1]
        have hpred : (fun e => decide (e.path = p ∧ e.type ≠ FileType.Directory))
            (mkDataEntry pm p FileType.Regular content (add_parent_directories fs A p).data.length) = true := by
          rw [decide_eq_true_eq]
          exact ⟨rfl, fun h => FileType.noConfusion h⟩
        have hfind2 : List.findIdx?
            (fun e => decide (e.path = p ∧ e.type ≠ FileType.Directory))
            ((add_parent_directories fs A p).files ++
              [mkDataEntry pm p FileType.Regular content (add_parent_directories fs A p).data.length]) =
            some (add_parent_directories fs A p).files.length := by
          rw [List.findIdx?_append,
            List.findIdx?_eq_none_iff.mpr (fun e he => by simp [hA1fresh e he])]
          simp [hpred]
          exact ⟨rfl, fun h => FileType.noConfusion h⟩
        refine ⟨?_, ?_, ?_⟩
        · rw [hres]
          simp only [add_file, hm, addFileFuel, hl, hfind2]
        · rw [hres]
          exact ⟨(add_parent_directories fs A p).files.length, rfl,
            by rw [getD_append_at_entries]; rfl⟩
        · rw [hres]
          simp only [List.countP_append, hcount1]
          simp [mkDataEntry]
    | symlink pm target =>
        have hfind1 : List.findIdx?
            (fun e => decide (e.path = p ∧ e.type ≠ FileType.Directory)) A.files = none :=
          List.findIdx?_eq_none_iff.mpr (fun e he => by simp [hfresh e he])
        have hres : add_file fs A p =
            ({ files := (add_parent_directories fs A p).files ++
                [mkDataEntry pm p FileType.Symlink target (add_parent_directories fs A p).data.length]
               data := (add_parent_directories fs A p).data ++ target },
              some (add_parent_directories fs A p).files.length) := by
          simp only [add_file, hm, addFileFuel, hl, hfind1]
        have hpred : (fun e => decide (e.path = p ∧ e.type ≠ FileType.Directory))
            (mkDataEntry pm p FileType.Symlink target (add_parent_directories fs A p).data.length) = true := by
          rw [decide_eq_true_eq]
          exact ⟨rfl, fun h => FileType.noConfusion h⟩
        have hfind2 : List.findIdx?
            (fun e => decide (e.path = p ∧ e.type ≠ FileType.Directory))
            ((add_parent_directories fs A p).files ++
              [mkDataEntry pm p FileType.Symlink target (add_parent_directories fs A p).data.length]) =
            some (add_parent_directories fs A p).files.length := by
          rw [List.findIdx?_append,
            List.findIdx?_eq_none_iff.mpr (fun e he => by simp [hA1fresh e he])]
          simp [hpred]
          exact ⟨rfl, fun h => FileType.noConfusion h⟩
        refine ⟨?_, ?_, ?_⟩
        · rw [hres]
          simp only [add_file, hm, addFileFuel, hl, hfind2]
        · rw [hres]
          exact ⟨(add_parent_directories fs A p).files.length, rfl,
            by rw [getD_append_at_entries]; rfl⟩
        · rw [hres]
          simp only [List.countP_append, hcount1]
          simp [mkDataEntry]
    | dir pm =>
        have hfindD : List.findIdx?
            (fun e => decide (e.path = p ∧ e.type = FileType.Directory))
            (add_parent_directories fs A p).files = none :=
          List.findIdx?_eq_none_iff.mpr (fun e he => by simp [hA1fresh e he])
        set A1 := add_parent_directories fs A p with hA1
        set D := mkDirEntry pm p A1.data.length with hD
        set A2 : BArchive := { A1 with files := A1.files ++ [D] } with hA2
        set A3 := (childrenFS fs p).foldl (fun acc child =>
            if child.2.isDir then (addDirFuel m fs acc child.1).1
            else (addFileFuel m fs acc child.1).1) A2 with hA3
        have hres : add_file fs A p = (A3, some A1.files.length) := by
          simp only [add_file, hm, addFileFuel, addDirFuel, hl, hfindD]
        have hchild : ∀ c ∈ childrenFS fs p, c.1 ≠ p ∧ ¬ isPre c.1 p := by
          intro c hc
          obtain ⟨_, hlen, htake⟩ := childrenFS_mem fs p c hc
          obtain ⟨x, hx⟩ := eq_append_single_of_take c.1 p hlen htake
          constructor
          · intro hcp
            rw [hcp] at hlen
            omega
          · apply not_isPre_of_longer
            omega
        have hext23 : FilesExtend A2 A3 :=
          child_fold_extends fs m (fun B r => addFuel_extends m fs B r) (childrenFS fs p) A2
        have hdp2 : DirPresent A2.files p :=
          ⟨D, List.mem_append_right _ (List.mem_singleton.mpr rfl), rfl, rfl⟩
        have hdp3 : DirPresent A3.files p := dirPresent_mono A2 A3 p hext23 hdp2
        have hcount3 : List.countP (fun e => decide (e.path = p)) A3.files = 1 := by
          rw [child_fold_countP fs m p (fun B r => addFuel_countP p m fs B r)
            (childrenFS fs p) A2 hdp2 hchild]
          show List.countP (fun e => decide (e.path = p)) (A1.files ++ [D]) = 1
          rw [List.countP_append, hcount1]
          simp [hD, mkDirEntry]
        have hpost3 : ∀ q ∈ parentPrefixes p, fsIsDir fs q = true → DirPresent A3.files q := by
          intro q hq hdir
          have h1 : DirPresent A1.files q := apd_post fs A p q hq hdir
          exact dirPresent_mono A1 A3 q
            (filesExtend_trans A1 A2 A3 ⟨[D], rfl⟩ hext23) h1
        have hnoop : add_parent_directories fs A3 p = A3 := apd_noop fs A3 p hpost3
        obtain ⟨t2, ht2⟩ := hext23
        have hA3files : A3.files = A1.files ++ (D :: t2) := by
          rw [ht2]
          show (A1.files ++ [D]) ++ t2 = A1.files ++ (D :: t2)
          simp
        have hfind3 : List.findIdx?
            (fun e => decide (e.path = p ∧ e.type = FileType.Directory)) A3.files =
            some A1.files.length := by
          rw [hA3files, List.findIdx?_append,
            List.findIdx?_eq_none_iff.mpr (fun e he => by simp [hA1fresh e he])]
          have hpredD : (fun e => decide (e.path = p ∧ e.type = FileType.Directory)) D = true := by
            rw [decide_eq_true_eq]
            exact ⟨rfl, rfl⟩
          simp [hpredD]
          exact ⟨rfl, rfl⟩
        refine ⟨?_, ?_, ?_⟩
        · rw [hres]
          have : add_file fs A3 p = (A3, some A1.files.length) := by
            simp only [add_file, hm, addFileFuel, addDirFuel, hl, hnoop, hfind3]
          rw [this]
        · rw [hres]
          refine ⟨A1.files.length, rfl, ?_⟩
          rw [hA3files, getD_append_at_entries]
          rfl
        · rw [hres]
          exact hcount3

/-- Witness for C6: adding the nested file twice on a fresh archive. -/
theorem C6_witness :
    lookupFS c7fs ["a", "b", "c"] ≠ none ∧
      (∀ e ∈ emptyBArchive.files, e.path ≠ ["a", "b", "c"]) ∧
      (add_file c7fs (add_file c7fs emptyBArchive ["a", "b", "c"]).1 ["a", "b", "c"] =
          add_file c7fs emptyBArchive ["a", "b", "c"] ∧
        (∃ i, (add_file c7fs emptyBArchive ["a", "b", "c"]).2 = some i ∧
          ((add_file c7fs emptyBArchive ["a", "b", "c"]).1.files.getD i defaultBEntry).path =
            ["a", "b", "c"]) ∧
        List.countP (fun e => decide (e.path = ["a", "b", "c"]))
          (add_file c7fs emptyBArchive ["a", "b", "c"]).1.files = 1) :=
  ⟨by decide, by decide,
    C6_add_file_idempotent c7fs emptyBArchive ["a", "b", "c"] (by decide) (by decide)⟩

end Kundli
